import Mathlib

/-!
Verification of the tangent repository's CFG / dataflow / gradient-node core
(`tangent/cfg.py` and `tangent/create.py`), via a shallow embedding in Lean 4.

Conventions of the embedding:
* Python `gast` AST nodes become members of the inductive type `GExpr`.
  tangent's annotation store attaches values to AST node objects by identity;
  in the embedding each node carries its annotation table inline as a
  `List (String × GExpr)` (tangent's labels used in `create.py` all map nodes
  to nodes, so this type suffices there).
* Python exceptions become an `Except PyErr` result: `TypeError` raised by the
  code maps to `PyErr.typeErr`, and an unguarded access to a missing attribute
  (for example `node.value.id` when `node.value` is not a `Name`) maps to
  `PyErr.attrErr`, mirroring Python's `AttributeError`.
* The naming capability (`tangent/naming.py`, outside the analyzed sources) is
  an abstract `Namer` structure of pure functions, following the spec's
  "naming capability" interface.
-/

namespace Tangent

/-- Embedding of the `gast` expression nodes used by `create.py` and the
variable collector.  Each constructor carries the node's annotation table. -/
inductive GExpr : Type where
  | Name (id : String) (annos : List (String × GExpr))
  | Attribute (value : GExpr) (attr : String) (annos : List (String × GExpr))
  | Subscript (value : GExpr) (slice : GExpr) (annos : List (String × GExpr))
  | Str (s : String) (annos : List (String × GExpr))
  | Tuple (elts : List GExpr) (annos : List (String × GExpr))
  | Call (func : GExpr) (args : List GExpr) (annos : List (String × GExpr))
  | Num (n : Int) (annos : List (String × GExpr))

/-- The annotation table of a node (tangent stores it in a dedicated
attribute on the AST object). -/
def GExpr.annosOf : GExpr → List (String × GExpr)
  | .Name _ a => a
  | .Attribute _ _ a => a
  | .Subscript _ _ a => a
  | .Str _ a => a
  | .Tuple _ a => a
  | .Call _ _ a => a
  | .Num _ a => a

/-- `anno.getanno(node, key)` restricted to the keys used in `create.py`:
first binding of the key in the node's annotation table. -/
def lookupAnno : List (String × GExpr) → String → Option GExpr
  | [], _ => none
  | (k, v) :: t, key => if k = key then some v else lookupAnno t key

/-- `anno.hasanno(node, key)`. -/
def hasanno (e : GExpr) (key : String) : Bool :=
  (lookupAnno e.annosOf key).isSome

/-- Python exceptions raised by `create.py`: explicit `raise TypeError`, and
`AttributeError` from accessing a field a node does not have. -/
inductive PyErr : Type where
  | typeErr (msg : String)
  | attrErr
deriving DecidableEq

/-- The naming capability consumed by `create.py` (`tangent/naming.py` is out
of the analyzed sources; the spec describes it as a deterministic,
collision-free source of names). -/
structure Namer : Type where
  grad : String → Bool → String
  temp_grad : String → Bool → String
  temp : String → String
  name_Attribute : GExpr → String

mutual

/-- Size measure on expression nodes, used to justify the recursion of
`create_grad` (which may recurse into an annotation value or into a fresh
bare `Name` built from a `Str`, so plain structural recursion does not
apply).  A `Str` weighs two so that the fresh `Name s []` is smaller. -/
def gsize : GExpr → Nat
  | .Name _ a => 1 + annosSize a
  | .Attribute v _ a => 1 + gsize v + annosSize a
  | .Subscript v s a => 1 + gsize v + gsize s + annosSize a
  | .Str _ a => 2 + annosSize a
  | .Tuple es a => 1 + eltsSize es + annosSize a
  | .Call f es a => 1 + gsize f + eltsSize es + annosSize a
  | .Num _ a => 1 + annosSize a

/-- Size of an annotation table. -/
def annosSize : List (String × GExpr) → Nat
  | [] => 0
  | (_, v) :: t => 1 + gsize v + annosSize t

/-- Size of a node list. -/
def eltsSize : List GExpr → Nat
  | [] => 0
  | e :: t => 1 + gsize e + eltsSize t

end

theorem lookupAnno_lt {a : List (String × GExpr)} {k : String} {v : GExpr}
    (h : lookupAnno a k = some v) : gsize v < 1 + annosSize a := by
  induction a with
  | nil => simp [lookupAnno] at h
  | cons hd t ih =>
    obtain ⟨k', v'⟩ := hd
    by_cases hk : k' = k
    · simp [lookupAnno, hk] at h
      subst h
      simp [annosSize]
      omega
    · simp [lookupAnno, hk] at h
      have := ih h
      simp [annosSize]
      omega

theorem annosSize_annosOf_lt (e : GExpr) : annosSize e.annosOf < gsize e := by
  cases e <;> simp [GExpr.annosOf, gsize]

/-- The shape test at the top of `create_grad`:
`isinstance(node, (gast.Subscript, gast.Name, gast.Attribute, gast.Str))`. -/
def shapeOKGrad : GExpr → Bool
  | .Subscript .. => true
  | .Name .. => true
  | .Attribute .. => true
  | .Str .. => true
  | _ => false

/-- `create_grad(node, namer, tangent)` from `tangent/create.py`.
The `ctx` attribute of gast nodes is not modelled (the source leaves it
`None`/`Load` and it carries no information used here). -/
def create_grad (node : GExpr) (namer : Namer) (tangent : Bool) :
    Except PyErr GExpr :=
  if shapeOKGrad node = false then
    .error (.typeErr "input must be a Subscript, Name, Attribute or Str")
  else
    match hTv : lookupAnno node.annosOf "temp_var" with
    | some v => create_grad v namer tangent
    | none =>
      match node with
      | .Name id a =>
        .ok (.Name (namer.grad id tangent) [("adjoint_var", GExpr.Name id a)])
      | .Subscript v sl _ =>
        match create_grad v namer tangent with
        | .ok g => .ok (.Subscript g sl [])
        | .error e => .error e
      | .Attribute v attr a =>
        .ok (.Name (namer.grad (namer.name_Attribute (GExpr.Attribute v attr a))
              tangent)
            [("adjoint_var", GExpr.Attribute v attr a)])
      | .Str s _ =>
        match create_grad (GExpr.Name s []) namer tangent with
        | .ok (.Name gid _) => .ok (.Str gid [])
        | .ok _ => .error .attrErr
        | .error e => .error e
      | _ => .error (.typeErr "Can't name a grad of this type")
termination_by gsize node
decreasing_by
  all_goals simp_wf
  · have h1 := lookupAnno_lt hTv
    have h2 := annosSize_annosOf_lt node
    omega
  · simp [gsize]
    omega
  · simp [gsize, annosSize]
    omega

/-- `_get_full_name(node)` from `tangent/create.py`: the dotted name of a
pure `Attribute`/`Name` chain, `none` as soon as the chain passes through
any other node kind. -/
def get_full_name : GExpr → Option String
  | .Name id _ => some id
  | .Attribute v attr _ => (get_full_name v).map (fun p => p ++ "." ++ attr)
  | _ => none

/-- `create_temp_grad(node, namer, tangent)` from `tangent/create.py`.
In the `Subscript` arm the source reads `node.value.id` without any guard;
when the base is not a bare `Name` this is an `AttributeError`, modelled as
`PyErr.attrErr`.  The final `else` arm formats `node.s` into its `TypeError`
message, which itself raises `AttributeError` for nodes without an `s`
field, so that arm is also `attrErr`. -/
def create_temp_grad (node : GExpr) (namer : Namer) (tangent : Bool) :
    Except PyErr GExpr := do
  let name ← (match node with
    | .Name id _ => pure (namer.temp_grad id tangent)
    | .Subscript v _ _ =>
      match v with
      | .Name id _ => pure (namer.temp_grad id tangent)
      | _ => .error .attrErr
    | .Str s _ => pure (namer.temp_grad s tangent)
    | .Attribute v attr a =>
      match get_full_name (GExpr.Attribute v attr a) with
      | some n => pure (namer.temp_grad (n.replace "." "_") tangent)
      | none =>
        .error (.typeErr "Can't create temp grad name from non-simple Attribute")
    | _ => (.error .attrErr : Except PyErr String))
  pure (GExpr.Name name [("temp_adjoint_var", node)])

/-- `isinstance(node, (gast.Attribute, gast.Subscript))`. -/
def isAttrOrSubscript : GExpr → Bool
  | .Attribute .. => true
  | .Subscript .. => true
  | _ => false

/-- The loop over tuple members inside `create_temp`.  Note the source's
`elif isinstance(node, (gast.Attribute, gast.Subscript))` tests the outer
tuple `node` rather than the member `n`; the translation keeps that test
verbatim, so for a `Tuple` argument the branch is dead and every non-`Name`
member raises the `TypeError`. -/
def tupleEltNames (node : GExpr) : List GExpr → Except PyErr (List String)
  | [] => .ok []
  | n :: t =>
    match n with
    | .Name id _ => (tupleEltNames node t).map (fun ns => id :: ns)
    | _ =>
      if isAttrOrSubscript node then
        match n with
        | .Attribute v _ _ =>
          match v with
          | .Name id _ => (tupleEltNames node t).map (fun ns => id :: ns)
          | _ => .error .attrErr
        | .Subscript v _ _ =>
          match v with
          | .Name id _ => (tupleEltNames node t).map (fun ns => id :: ns)
          | _ => .error .attrErr
        | _ => .error .attrErr
      else
        .error (.typeErr
          "found Tuple node with entries that are not Name, Attribute, or Subscript")

/-- `create_temp(node, namer)` from `tangent/create.py`.  As in
`create_temp_grad`, `node.value.id` on an `Attribute`/`Subscript` whose base
is not a bare `Name` is an unguarded `AttributeError`. -/
def create_temp (node : GExpr) (namer : Namer) : Except PyErr GExpr := do
  let name ← (match node with
    | .Name id _ => pure id
    | .Attribute v _ _ =>
      match v with
      | .Name id _ => pure id
      | _ => .error .attrErr
    | .Subscript v _ _ =>
      match v with
      | .Name id _ => pure id
      | _ => .error .attrErr
    | .Tuple elts a =>
      (tupleEltNames (GExpr.Tuple elts a) elts).map
        (fun ns => String.intercalate "_" ns)
    | _ =>
      (.error (.typeErr
        "found node but expected a Name, Attribute, Subscript, or Tuple")
        : Except PyErr String))
  pure (GExpr.Name (namer.temp name) [("temp_var", node)])

/-- A concrete naming capability used to instantiate theorems on explicit
inputs. -/
def nm0 : Namer where
  grad := fun s _ => "d" ++ s
  temp_grad := fun s _ => "_d" ++ s
  temp := fun s => "_" ++ s
  name_Attribute := fun _ => "a0"

/-- C8.  The claim says `make_temp` succeeds on every tuple whose members are
all names, attributes, or subscripts.  The code's member loop tests
`isinstance(node, ...)` on the outer tuple instead of the member `n` (and its
own error message speaks about the entries), so a tuple containing an
attribute member raises the `TypeError` instead of succeeding: evaluating
`create_temp` on the tuple `(x.a,)` yields that error for every namer. -/
theorem claim_C8 (nm : Namer) :
    create_temp (GExpr.Tuple [GExpr.Attribute (GExpr.Name "x" []) "a" []] []) nm
      = .error (.typeErr
          "found Tuple node with entries that are not Name, Attribute, or Subscript") :=
  rfl

/-- Evaluation rule for `create_grad` on a bare name carrying no `temp_var`
annotation (helper shared by several proofs below). -/
theorem create_grad_name_eq (nm : Namer) (t : Bool) (id : String)
    (a : List (String × GExpr)) (h : lookupAnno a "temp_var" = none) :
    create_grad (GExpr.Name id a) nm t
      = .ok (.Name (nm.grad id t) [("adjoint_var", GExpr.Name id a)]) := by
  rw [create_grad]
  simp [GExpr.annosOf, shapeOKGrad]
  split
  · rename_i v hTv
    rw [h] at hTv
    exact Option.noConfusion hTv
  · rfl

/-- C9 counterexample.  `make_grad` on the subscript `x[i]` (an accepted
input shape) returns a node carrying no back-reference annotation at all:
the `adjoint_var` annotation sits on the subscript's base, not on the
returned node, so the claim "the node returned ... carries an adjoint_var
back-reference" fails on this concrete input. -/
theorem claim_C9_counterexample :
    (create_grad (GExpr.Subscript (GExpr.Name "x" []) (GExpr.Name "i" []) [])
        nm0 false).toOption.map (fun r => hasanno r "adjoint_var")
      = some false := by
  rw [create_grad]
  simp only [GExpr.annosOf, shapeOKGrad, lookupAnno]
  rw [create_grad_name_eq nm0 false "x" [] rfl]
  simp [hasanno, GExpr.annosOf, lookupAnno, Except.toOption]

/-- Evaluation rule for `create_grad` on a subscript carrying no `temp_var`
annotation: the gradient of the base, rewrapped in a fresh subscript with
the original slice and an empty annotation table (helper shared by the
proofs below). -/
theorem create_grad_sub_eq (nm : Namer) (t : Bool) (base sl : GExpr)
    (a : List (String × GExpr)) (h : lookupAnno a "temp_var" = none) :
    create_grad (GExpr.Subscript base sl a) nm t
      = Except.map (fun g => GExpr.Subscript g sl []) (create_grad base nm t) := by
  rw [create_grad]
  simp [GExpr.annosOf, shapeOKGrad]
  split
  · rename_i v hTv
    rw [h] at hTv
    exact Option.noConfusion hTv
  · cases hr : create_grad base nm t with
    | ok g => rfl
    | error e => rfl

/-- C9 amended.  For a bare name or a dotted attribute (not standing in for
a temporary), the node returned by `create_grad` is a fresh name carrying
an `adjoint_var` back-reference to the input.  For any subscript input the
returned node is `create_grad` of the base rewrapped in a subscript with
the original slice and NO annotation of its own - the `adjoint_var`
back-reference therefore sits where the recursion bottoms out in a name
(at the innermost base of a name-rooted chain), never on the returned
node.  For a string literal the returned node is a plain string node
carrying no annotation. -/
theorem claim_C9 (nm : Namer) (t : Bool) :
    (∀ id a, lookupAnno a "temp_var" = none →
      create_grad (GExpr.Name id a) nm t
        = .ok (.Name (nm.grad id t) [("adjoint_var", GExpr.Name id a)]))
    ∧ (∀ v attr a, lookupAnno a "temp_var" = none →
      create_grad (GExpr.Attribute v attr a) nm t
        = .ok (.Name (nm.grad (nm.name_Attribute (GExpr.Attribute v attr a)) t)
            [("adjoint_var", GExpr.Attribute v attr a)]))
    ∧ (∀ base sl a, lookupAnno a "temp_var" = none →
      create_grad (GExpr.Subscript base sl a) nm t
        = Except.map (fun g => GExpr.Subscript g sl []) (create_grad base nm t))
    ∧ (∀ base sl a r, lookupAnno a "temp_var" = none →
      create_grad (GExpr.Subscript base sl a) nm t = .ok r →
      hasanno r "adjoint_var" = false)
    ∧ (∀ s a, lookupAnno a "temp_var" = none →
      create_grad (GExpr.Str s a) nm t = .ok (.Str (nm.grad s t) [])) := by
  refine ⟨fun id a h => create_grad_name_eq nm t id a h, ?_, ?_, ?_, ?_⟩
  · intro v attr a h
    rw [create_grad]
    simp [GExpr.annosOf, shapeOKGrad]
    split
    · rename_i w hTv
      rw [h] at hTv
      exact Option.noConfusion hTv
    · rfl
  · exact fun base sl a h => create_grad_sub_eq nm t base sl a h
  · intro base sl a r h heq
    rw [create_grad_sub_eq nm t base sl a h] at heq
    cases hr : create_grad base nm t with
    | ok g =>
      rw [hr] at heq
      have hre : GExpr.Subscript g sl [] = r := Except.ok.inj heq
      rw [← hre]
      rfl
    | error e =>
      rw [hr] at heq
      exact Except.noConfusion heq
  · intro s a h
    rw [create_grad]
    simp [GExpr.annosOf, shapeOKGrad]
    split
    · rename_i v hTv
      rw [h] at hTv
      exact Option.noConfusion hTv
    · rw [create_grad_name_eq nm t s [] rfl]

/-- C9 witness: the amended theorem applied to the bare name `x` and to the
nested subscript `x[i][j]` (whose base is itself a subscript), with no
annotations and the concrete namer `nm0`. -/
theorem claim_C9_witness :
    lookupAnno [] "temp_var" = none
    ∧ create_grad (GExpr.Name "x" []) nm0 false
        = .ok (.Name "dx" [("adjoint_var", GExpr.Name "x" [])])
    ∧ create_grad
        (GExpr.Subscript (GExpr.Subscript (GExpr.Name "x" []) (GExpr.Name "i" []) [])
          (GExpr.Name "j" []) []) nm0 false
        = Except.map (fun g => GExpr.Subscript g (GExpr.Name "j" []) [])
            (create_grad
              (GExpr.Subscript (GExpr.Name "x" []) (GExpr.Name "i" []) []) nm0 false) :=
  ⟨rfl, (claim_C9 nm0 false).1 "x" [] rfl,
   (claim_C9 nm0 false).2.2.1
     (GExpr.Subscript (GExpr.Name "x" []) (GExpr.Name "i" []) [])
     (GExpr.Name "j" []) [] rfl⟩

/-- C10.  `create_temp_grad` on a subscript succeeds exactly when the base is
a bare name (whose identifier seeds the temporary's name, and the result is
a bare name annotated `temp_adjoint_var` referencing the whole subscript);
for a base that is an attribute, a call, or a nested subscript it fails with
the unguarded-attribute-access error (`node.value.id`), not with the
`TypeError` branch. -/
theorem claim_C10 (nm : Namer) (t : Bool) :
    (∀ id ab sl a,
      create_temp_grad (GExpr.Subscript (GExpr.Name id ab) sl a) nm t
        = .ok (.Name (nm.temp_grad id t)
            [("temp_adjoint_var", GExpr.Subscript (GExpr.Name id ab) sl a)]))
    ∧ (∀ v attr ab sl a,
      create_temp_grad (GExpr.Subscript (GExpr.Attribute v attr ab) sl a) nm t
        = .error .attrErr)
    ∧ (∀ f args ab sl a,
      create_temp_grad (GExpr.Subscript (GExpr.Call f args ab) sl a) nm t
        = .error .attrErr)
    ∧ (∀ v2 sl2 ab sl a,
      create_temp_grad (GExpr.Subscript (GExpr.Subscript v2 sl2 ab) sl a) nm t
        = .error .attrErr) :=
  ⟨fun _ _ _ _ => rfl, fun _ _ _ _ _ => rfl, fun _ _ _ _ _ => rfl,
   fun _ _ _ _ _ => rfl⟩

/-!
### CFG builder (`tangent/cfg.py`, class `CFG`)

Node objects live in an arena: node `i` is described by position `i` of the
`vals` and `nexts` lists, in creation order.  The entry node is always index
`0`.  A node's `value` is `none` exactly for the sentinel exit node.  The
`prev` sets are all empty during construction (only `backlink` ever fills
them in the source), so they appear only in the final `backlink` pass.

Expressions on this side of the embedding (`CExpr`) carry no annotation
table except the one bit the Active analysis reads: whether a call's `func`
annotation is tangent's stack-`pop` primitive (the spec leaves the exact
recognition mechanism abstract).
-/

/-- Expressions as used by the CFG builder and the dataflow analyses. -/
inductive CExpr : Type where
  | name (id : String)
  | attr (value : CExpr) (a : String)
  | sub (value : CExpr) (slice : CExpr)
  | call (func : CExpr) (args : List CExpr) (funcAnnoIsPop : Bool)
  | tup (elts : List CExpr)
  | const

/-- The AST value held by a CFG node: the function's parameter list (entry
node), an assignment, a bare expression (the test of a conditional or loop),
the `For` statement itself (loop header), or any other plain statement. -/
inductive NodeVal : Type where
  | argsV (params : List String)
  | assignV (targets : List CExpr) (rhs : CExpr)
  | exprV (e : CExpr)
  | forV (target : CExpr) (iter : CExpr)
  | otherV

/-- Statements, covering exactly the kinds the builder recognizes
(`grammar.CONTROL_FLOW` members get a `visit_*` method; everything else is a
plain statement wrapped in a node). -/
inductive CStmt : Type where
  | ifS (test : CExpr) (body orelse : List CStmt)
  | whileS (test : CExpr) (body orelse : List CStmt)
  | forS (target : CExpr) (iter : CExpr) (body orelse : List CStmt)
  | breakS
  | continueS
  | tryS (body : List CStmt) (handlers : List (List CStmt))
      (orelse finalbody : List CStmt)
  | plain (v : NodeVal)

/-- Builder state: the node arena (`vals`, `nexts`), the current frontier
(`head`) and the break/continue collector stacks (head of list = innermost
nesting level). -/
structure BuildState : Type where
  vals : List (Option NodeVal)
  nexts : List (Finset Nat)
  head : List Nat
  brks : List (List Nat)
  conts : List (List Nat)

/-- Allocate a fresh node (`Node(value)`): empty `next`, returns its index. -/
def newNode (v : Option NodeVal) (s : BuildState) : Nat × BuildState :=
  (s.vals.length,
   { s with vals := s.vals ++ [v], nexts := s.nexts ++ [∅] })

/-- `head.next.add(node)` for one frontier member. -/
def addEdge (a b : Nat) (s : BuildState) : BuildState :=
  { s with nexts := s.nexts.set a (insert b (s.nexts.getD a ∅)) }

/-- `set_head(node)`: link every frontier member to `n`, collapse the
frontier to `[n]`. -/
def setHead (n : Nat) (s : BuildState) : BuildState :=
  let s' := s.head.foldl (fun acc h => addEdge h n acc) s
  { s' with head := [n] }

/-- `break_[-1].extend(xs)` (pushing onto the innermost collector; an empty
collector stack would be an `IndexError` in the source - `break` outside a
loop - and is modelled as a no-op, never exercised by the claims). -/
def pushTop (xs : List Nat) : List (List Nat) → List (List Nat)
  | [] => []
  | top :: rest => (top ++ xs) :: rest

/-- `stack.pop()` on a collector stack. -/
def popTop : List (List Nat) → List Nat × List (List Nat)
  | [] => ([], [])
  | top :: rest => (top, rest)

mutual

/-- One `visit` dispatch of the builder (`visit_If`, `visit_While`,
`visit_For`, `visit_Break`, `visit_Continue`, `visit_Try`, and the plain
branch of `visit_statements`). -/
def visitStmt (st : CStmt) (s : BuildState) : BuildState :=
  match st with
  | .ifS test body orelse =>
    let p := newNode (some (.exprV test)) s
    let s2 := setHead p.1 p.2
    let s3 := visitStmts body s2
    let bodyExit := s3.head
    let s4 := { s3 with head := [p.1] }
    let s5 := visitStmts orelse s4
    { s5 with head := s5.head ++ bodyExit }
  | .whileS test body orelse =>
    let p := newNode (some (.exprV test)) s
    let s2 := setHead p.1 p.2
    let s3 := { s2 with brks := [] :: s2.brks, conts := [] :: s2.conts }
    let s4 := visitStmts body s3
    let c := popTop s4.conts
    let s5 := setHead p.1 { s4 with head := s4.head ++ c.1, conts := c.2 }
    let s6 := visitStmts orelse s5
    let b := popTop s6.brks
    { s6 with head := s6.head ++ b.1, brks := b.2 }
  | .forS tg it body _orelse =>
    let p := newNode (some (.forV tg it)) s
    let s2 := setHead p.1 p.2
    let s3 := { s2 with brks := [] :: s2.brks, conts := [] :: s2.conts }
    let s4 := visitStmts body s3
    let c := popTop s4.conts
    let s5 := setHead p.1 { s4 with head := s4.head ++ c.1, conts := c.2 }
    let b := popTop s5.brks
    { s5 with head := s5.head ++ b.1, brks := b.2 }
  | .breakS =>
    { s with brks := pushTop s.head s.brks, head := [] }
  | .continueS =>
    { s with conts := pushTop s.head s.conts, head := [] }
  | .tryS body handlers orelse finalbody =>
    let s1 := visitStmts body s
    let bodyExit := s1.head
    let ph := visitHandlers handlers bodyExit s1
    let s3 := { ph.2 with head := bodyExit }
    let s4 := visitStmts orelse s3
    let s5 := { s4 with head := ph.1 ++ s4.head }
    visitStmts finalbody s5
  | .plain v =>
    let p := newNode (some v) s
    setHead p.1 p.2

/-- `visit_statements`. -/
def visitStmts (l : List CStmt) (s : BuildState) : BuildState :=
  match l with
  | [] => s
  | st :: t => visitStmts t (visitStmt st s)

/-- The handler loop of `visit_Try`: each handler body is visited from a
copy of the saved body exit; handler exits are accumulated in order. -/
def visitHandlers (hs : List (List CStmt)) (bodyExit : List Nat)
    (s : BuildState) : List Nat × BuildState :=
  match hs with
  | [] => ([], s)
  | h :: t =>
    let s1 := visitStmts h { s with head := bodyExit }
    let pr := visitHandlers t bodyExit s1
    (s1.head ++ pr.1, pr.2)

end


/-- Reachability along `next` edges. -/
def Reach (nx : Nat → Finset Nat) (a b : Nat) : Prop :=
  Relation.ReflTransGen (fun x y => y ∈ nx x) a b

/-- State of the `backlink` worklist traversal: the `seen` set, the
`to_see` stack (head of this list = the end of the Python list, i.e. the
element `pop()` removes), and the `prev` sets built so far. -/
structure BLState : Type where
  seen : Finset Nat
  stack : List Nat
  prevs : Nat → Finset Nat

/-- One iteration of the `while to_see:` loop of `backlink`: pop a node,
mark it seen, add it to every successor's `prev`, and push the successors
not yet seen (set iteration order is unspecified in the source; the
embedding fixes the ascending order). -/
def blStep (nx : Nat → Finset Nat) (s : BLState) : BLState :=
  match s.stack with
  | [] => s
  | n :: rest =>
    let seen2 := insert n s.seen
    { seen := seen2
      stack := ((nx n).filter (fun m => m ∉ seen2)).sort (· ≤ ·) ++ rest
      prevs := fun p => if p ∈ nx n then insert n (s.prevs p) else s.prevs p }

/-- The `backlink` loop with an explicit iteration budget (the source's
`while to_see:`; `blFuel` below is provably enough budget to drain the
stack). -/
def blRun (nx : Nat → Finset Nat) : Nat → BLState → BLState
  | 0, s => s
  | f + 1, s =>
    match s.stack with
    | [] => s
    | _ :: _ => blRun nx f (blStep nx s)

/-- Iteration budget sufficient for a graph on `N` nodes. -/
def blFuel (N : Nat) : Nat := (N + 1) * N + 2

/-- `CFG.backlink(node)`: fill in the `prev` sets by a traversal from the
entry.  All `prev` sets are empty when the source calls it (nothing before
`backlink` ever touches `prev`), so they start as the constant `∅` here. -/
def backlink (nx : Nat → Finset Nat) (N entry : Nat) : Nat → Finset Nat :=
  (blRun nx (blFuel N) { seen := ∅, stack := [entry], prevs := fun _ => ∅ }).prevs

/-- The finished product of `CFG.build_cfg`: the arena plus the derived
`prev` sets.  Entry node = index 0, exit node = last index (value `none`). -/
structure CFGraph : Type where
  vals : List (Option NodeVal)
  nexts : List (Finset Nat)
  prevs : Nat → Finset Nat

/-- Successor set of node `i`. -/
def CFGraph.nextF (g : CFGraph) (i : Nat) : Finset Nat := g.nexts.getD i ∅

/-- `CFG.build_cfg(node)` for a function definition with parameter list
`params` and body `body` (the source's `TypeError` guard fires on inputs
outside the embedded input type and has no content here). -/
def build_cfg (params : List String) (body : List CStmt) : CFGraph :=
  let s0 : BuildState :=
    { vals := [some (.argsV params)], nexts := [∅], head := [0],
      brks := [], conts := [] }
  let s1 := visitStmts body s0
  let p := newNode none s1
  let s3 := setHead p.1 p.2
  { vals := s3.vals, nexts := s3.nexts,
    prevs := backlink (fun i => s3.nexts.getD i ∅) s3.vals.length 0 }

/-- The For-loop step as claim C3 describes it: the else clause is visited
from the header and the frontier afterwards is the else exit plus the break
targets - `visit_While`'s shape transplanted onto `visit_For`.  Written
from the spec's words, to be compared with the source translation
`visitStmt`. -/
def visitForClaim (tg it : CExpr) (body orelse : List CStmt)
    (s : BuildState) : BuildState :=
  let p := newNode (some (.forV tg it)) s
  let s2 := setHead p.1 p.2
  let s3 := { s2 with brks := [] :: s2.brks, conts := [] :: s2.conts }
  let s4 := visitStmts body s3
  let c := popTop s4.conts
  let s5 := setHead p.1 { s4 with head := s4.head ++ c.1, conts := c.2 }
  let s6 := visitStmts orelse s5
  let b := popTop s6.brks
  { s6 with head := s6.head ++ b.1, brks := b.2 }

/-- The exception-block step as claim C4 describes it: the frontier becomes
handler exits prepended to the saved body exit BEFORE the else clause is
visited, and the finally clause follows.  Written from the spec's words,
to be compared with the source translation `visitStmt`. -/
def visitTryClaim (body : List CStmt) (handlers : List (List CStmt))
    (orelse finalbody : List CStmt) (s : BuildState) : BuildState :=
  let s1 := visitStmts body s
  let bodyExit := s1.head
  let ph := visitHandlers handlers bodyExit s1
  let s3 := { ph.2 with head := ph.1 ++ bodyExit }
  let s4 := visitStmts orelse s3
  visitStmts finalbody s4


/-!
### Correctness of `backlink`

The invariant bundle `BLInv` is maintained by every iteration of the
worklist loop.  The `lifo` component captures the stack discipline: once a
node is popped a second time, all its successors have been seen, so a
seen-pop pushes nothing and the loop drains in at most `blFuel N`
iterations.
-/

/-- Invariants of the `backlink` traversal over a graph whose edges stay
below `N`, started at `entry`. -/
structure BLInv (nx : Nat → Finset Nat) (N entry : Nat) (s : BLState) : Prop where
  seen_lt : ∀ n ∈ s.seen, n < N
  stack_lt : ∀ n ∈ s.stack, n < N
  seen_reach : ∀ n ∈ s.seen, Reach nx entry n
  stack_reach : ∀ n ∈ s.stack, Reach nx entry n
  closure : ∀ n ∈ s.seen, ∀ m ∈ nx n, m ∈ s.seen ∨ m ∈ s.stack
  lifo : ∀ pre n post, s.stack = pre ++ n :: post → n ∈ s.seen →
    ∀ m ∈ nx n, m ∈ s.seen ∨ m ∈ pre
  prevs_iff : ∀ p q, q ∈ s.prevs p ↔ q ∈ s.seen ∧ p ∈ nx q
  entry_mem : entry ∈ s.seen ∨ entry ∈ s.stack

/-- Termination measure of the worklist loop. -/
def blMeasure (N : Nat) (s : BLState) : Nat :=
  (N + 1) * (N - s.seen.card) + s.stack.length

theorem blStep_inv {nx : Nat → Finset Nat} {N entry : Nat}
    (hg : ∀ n m, m ∈ nx n → m < N) {s : BLState}
    (hs : BLInv nx N entry s) {n : Nat} {rest : List Nat}
    (hstack : s.stack = n :: rest) :
    BLInv nx N entry (blStep nx s) ∧ blMeasure N (blStep nx s) < blMeasure N s := by
  have hnN : n < N := hs.stack_lt n (by rw [hstack]; exact List.mem_cons_self _ _)
  have hreach : Reach nx entry n :=
    hs.stack_reach n (by rw [hstack]; exact List.mem_cons_self _ _)
  have hstep : blStep nx s =
      { seen := insert n s.seen
        stack := ((nx n).filter (fun m => m ∉ insert n s.seen)).sort (· ≤ ·) ++ rest
        prevs := fun p => if p ∈ nx n then insert n (s.prevs p) else s.prevs p } := by
    rw [blStep, hstack]
  set pushed := ((nx n).filter (fun m => m ∉ insert n s.seen)).sort (· ≤ ·)
    with hpushed
  have mem_pushed : ∀ m, m ∈ pushed ↔ m ∈ nx n ∧ m ∉ insert n s.seen := by
    intro m
    rw [hpushed, Finset.mem_sort, Finset.mem_filter]
  have hpop : ∀ m ∈ nx n, m ∈ insert n s.seen ∨ m ∈ pushed := by
    intro m hm
    by_cases hmem : m ∈ insert n s.seen
    · exact Or.inl hmem
    · exact Or.inr ((mem_pushed m).mpr ⟨hm, hmem⟩)
  rw [hstep]
  constructor
  · constructor
    · -- seen_lt
      intro q hq
      dsimp only at hq
      rcases Finset.mem_insert.mp hq with h | h
      · exact h ▸ hnN
      · exact hs.seen_lt q h
    · -- stack_lt
      intro q hq
      dsimp only at hq
      rcases List.mem_append.mp hq with h | h
      · exact hg n q ((mem_pushed q).mp h).1
      · exact hs.stack_lt q (by rw [hstack]; exact List.mem_cons_of_mem _ h)
    · -- seen_reach
      intro q hq
      dsimp only at hq
      rcases Finset.mem_insert.mp hq with h | h
      · exact h ▸ hreach
      · exact hs.seen_reach q h
    · -- stack_reach
      intro q hq
      dsimp only at hq
      rcases List.mem_append.mp hq with h | h
      · exact Relation.ReflTransGen.tail hreach ((mem_pushed q).mp h).1
      · exact hs.stack_reach q (by rw [hstack]; exact List.mem_cons_of_mem _ h)
    · -- closure
      intro q hq m hm
      dsimp only at hq ⊢
      rcases Finset.mem_insert.mp hq with h | h
      · rw [h] at hm
        rcases hpop m hm with h2 | h2
        · exact Or.inl h2
        · exact Or.inr (List.mem_append_left _ h2)
      · rcases hs.closure q h m hm with h2 | h2
        · exact Or.inl (Finset.mem_insert_of_mem h2)
        · rw [hstack] at h2
          rcases List.mem_cons.mp h2 with h3 | h3
          · exact Or.inl (h3 ▸ Finset.mem_insert_self n s.seen)
          · exact Or.inr (List.mem_append_right _ h3)
    · -- lifo
      intro pre q post hdec hq m hm
      dsimp only at hdec hq ⊢
      rcases List.append_eq_append_iff.mp hdec with ⟨a2, hpre, hrest⟩ | ⟨c2, hpu, hqp⟩
      · -- q inside rest
        have hss : s.stack = (n :: a2) ++ q :: post := by
          rw [hstack, hrest]
          simp
        rcases Finset.mem_insert.mp hq with h | h
        · -- popped node again
          rw [h] at hm
          rcases hpop m hm with h2 | h2
          · exact Or.inl h2
          · refine Or.inr ?_
            rw [hpre]
            exact List.mem_append_left _ h2
        · rcases hs.lifo (n :: a2) q post hss h m hm with h2 | h2
          · exact Or.inl (Finset.mem_insert_of_mem h2)
          · rcases List.mem_cons.mp h2 with h3 | h3
            · exact Or.inl (h3 ▸ Finset.mem_insert_self n s.seen)
            · refine Or.inr ?_
              rw [hpre]
              exact List.mem_append_right _ h3
      · cases c2 with
        | nil =>
          -- pushed = pre, rest = q :: post
          rw [List.append_nil] at hpu
          simp only [List.nil_append] at hqp
          have hss : s.stack = [n] ++ q :: post := by
            rw [hstack, ← hqp]
            rfl
          rcases Finset.mem_insert.mp hq with h | h
          · rw [h] at hm
            rcases hpop m hm with h2 | h2
            · exact Or.inl h2
            · refine Or.inr ?_
              rw [← hpu]
              exact h2
          · rcases hs.lifo [n] q post hss h m hm with h2 | h2
            · exact Or.inl (Finset.mem_insert_of_mem h2)
            · have h3 : m = n := by
                cases List.mem_singleton.mp h2
                rfl
              exact Or.inl (h3 ▸ Finset.mem_insert_self n s.seen)
        | cons q2 c3 =>
          -- q would be a member of pushed, impossible for a node of seen2
          have hq2 : q = q2 := by
            have := congrArg (fun l => l.head?) hqp
            simpa using this
          have hqpush : q ∈ pushed := by
            rw [hpu, hq2]
            exact List.mem_append_right _ (List.mem_cons_self _ _)
          exact absurd hq ((mem_pushed q).mp hqpush).2
    · -- prevs_iff
      intro p q
      dsimp only
      by_cases hp : p ∈ nx n
      · rw [if_pos hp]
        constructor
        · intro h
          rcases Finset.mem_insert.mp h with h1 | h1
          · exact ⟨h1 ▸ Finset.mem_insert_self n s.seen, h1 ▸ hp⟩
          · obtain ⟨h2, h3⟩ := (hs.prevs_iff p q).mp h1
            exact ⟨Finset.mem_insert_of_mem h2, h3⟩
        · rintro ⟨h1, h2⟩
          rcases Finset.mem_insert.mp h1 with h3 | h3
          · exact h3 ▸ Finset.mem_insert_self n (s.prevs p)
          · exact Finset.mem_insert_of_mem ((hs.prevs_iff p q).mpr ⟨h3, h2⟩)
      · rw [if_neg hp]
        rw [hs.prevs_iff p q]
        constructor
        · rintro ⟨h1, h2⟩
          exact ⟨Finset.mem_insert_of_mem h1, h2⟩
        · rintro ⟨h1, h2⟩
          rcases Finset.mem_insert.mp h1 with h3 | h3
          · exact absurd (h3 ▸ h2) hp
          · exact ⟨h3, h2⟩
    · -- entry_mem
      dsimp only
      rcases hs.entry_mem with h | h
      · exact Or.inl (Finset.mem_insert_of_mem h)
      · rw [hstack] at h
        rcases List.mem_cons.mp h with h2 | h2
        · exact Or.inl (h2 ▸ Finset.mem_insert_self n s.seen)
        · exact Or.inr (List.mem_append_right _ h2)
  · -- the measure decreases
    by_cases hn : n ∈ s.seen
    · -- seen pop: nothing is pushed, the stack shrinks
      have hins : insert n s.seen = s.seen := Finset.insert_eq_self.mpr hn
      have hempty : pushed = [] := by
        have hfe : (nx n).filter (fun m => m ∉ insert n s.seen) = ∅ := by
          apply Finset.filter_eq_empty_iff.mpr
          intro m hm
          rcases hs.lifo [] n rest (by rw [hstack]; rfl) hn m hm with h | h
          · exact fun hc => hc (Finset.mem_insert_of_mem h)
          · exact absurd h (List.not_mem_nil m)
        rw [hpushed, hfe, Finset.sort_empty]
      rw [blMeasure, blMeasure]
      dsimp only
      rw [hins, hempty, hstack]
      simp
    · -- fresh pop: one more node is seen
      have hcard : (insert n s.seen).card = s.seen.card + 1 :=
        Finset.card_insert_of_not_mem hn
      have hsub : insert n s.seen ⊆ Finset.range N := by
        intro q hq
        rcases Finset.mem_insert.mp hq with h | h
        · exact Finset.mem_range.mpr (h ▸ hnN)
        · exact Finset.mem_range.mpr (hs.seen_lt q h)
      have hle : s.seen.card + 1 ≤ N := by
        have := Finset.card_le_card hsub
        rw [hcard] at this
        simpa using this
      have hplen : pushed.length ≤ N := by
        rw [hpushed, Finset.length_sort]
        have hsub2 : (nx n).filter (fun m => m ∉ insert n s.seen) ⊆ Finset.range N := by
          intro q hq
          exact Finset.mem_range.mpr (hg n q (Finset.mem_filter.mp hq).1)
        have := Finset.card_le_card hsub2
        simpa using this
      rw [blMeasure, blMeasure]
      dsimp only
      rw [hcard, hstack]
      rw [List.length_append, List.length_cons]
      have hsplit : N - s.seen.card = (N - (s.seen.card + 1)) + 1 := by omega
      rw [hsplit, Nat.mul_add, Nat.mul_one]
      omega

theorem blRun_drains {nx : Nat → Finset Nat} {N entry : Nat}
    (hg : ∀ n m, m ∈ nx n → m < N) :
    ∀ (f : Nat) (s : BLState), BLInv nx N entry s → blMeasure N s < f →
      (blRun nx f s).stack = [] ∧ BLInv nx N entry (blRun nx f s) := by
  intro f
  induction f with
  | zero => intro s _ h; omega
  | succ f ih =>
    intro s hs hm
    cases hstack : s.stack with
    | nil =>
      rw [blRun, hstack]
      exact ⟨hstack, hs⟩
    | cons n rest =>
      rw [blRun, hstack]
      obtain ⟨hinv, hlt⟩ := blStep_inv hg hs hstack
      exact ih (blStep nx s) hinv (by omega)

/-- Master correctness theorem for `backlink`: for a graph whose edges stay
below `N` and an entry below `N`, the computed `prev` sets satisfy
`q ∈ prev p` iff `q` is reachable from the entry and `p ∈ next q`. -/
theorem backlink_prevs {nx : Nat → Finset Nat} {N entry : Nat}
    (hg : ∀ n m, m ∈ nx n → m < N) (hEntry : entry < N) :
    ∀ p q, q ∈ backlink nx N entry p ↔ Reach nx entry q ∧ p ∈ nx q := by
  have hinit : BLInv nx N entry { seen := ∅, stack := [entry], prevs := fun _ => ∅ } := by
    constructor
    · intro q hq; simp at hq
    · intro q hq
      simp at hq
      exact hq ▸ hEntry
    · intro q hq; simp at hq
    · intro q hq
      simp at hq
      subst hq
      exact Relation.ReflTransGen.refl
    · intro q hq _ _; simp at hq
    · intro pre q post hdec hq
      simp at hq
    · intro p q
      simp
    · right; simp
  have hminit : blMeasure N { seen := ∅, stack := [entry], prevs := fun _ => ∅ } < blFuel N := by
    rw [blMeasure, blFuel]
    simp
  obtain ⟨hdrain, hfin⟩ := blRun_drains hg (blFuel N) _ hinit hminit
  set F := blRun nx (blFuel N) { seen := ∅, stack := [entry], prevs := fun _ => ∅ } with hF
  have hseen : ∀ q, q ∈ F.seen ↔ Reach nx entry q := by
    intro q
    constructor
    · exact hfin.seen_reach q
    · intro h
      induction h with
      | refl =>
        rcases hfin.entry_mem with h2 | h2
        · exact h2
        · rw [hdrain] at h2
          exact absurd h2 (List.not_mem_nil _)
      | tail h1 h2 ih =>
        rename_i b c
        rcases hfin.closure b ih c h2 with h3 | h3
        · exact h3
        · rw [hdrain] at h3
          exact absurd h3 (List.not_mem_nil _)
  intro p q
  rw [backlink, ← hF]
  rw [hfin.prevs_iff p q, hseen q]


/-!
### Well-formedness of built graphs

Every edge the builder creates points at a node already in the arena, so in
the finished graph all successor indices are below the arena size.  This is
the hypothesis `backlink_prevs` needs.
-/

/-- All stored edges point into the arena. -/
def EOk (s : BuildState) : Prop :=
  ∀ i j, j ∈ s.nexts.getD i ∅ → j < s.vals.length

theorem getD_append_mem {l : List (Finset Nat)} {x : Finset Nat} {i j : Nat}
    (h : j ∈ (l ++ [x]).getD i ∅) : j ∈ l.getD i ∅ ∨ j ∈ x := by
  by_cases hi : i < l.length
  · rw [List.getD_append _ _ _ _ hi] at h
    exact Or.inl h
  · rw [List.getD_append_right _ _ _ _ (Nat.le_of_not_lt hi)] at h
    rcases Nat.eq_or_lt_of_le (Nat.le_of_not_lt hi) with he | hlt
    · rw [← he, Nat.sub_self] at h
      exact Or.inr h
    · rw [List.getD_eq_default] at h
      · exact absurd h (Finset.not_mem_empty j)
      · simp
        omega

theorem newNode_EOk {s : BuildState} (v : Option NodeVal) (h : EOk s) :
    EOk (newNode v s).2 := by
  intro i j hj
  rw [newNode] at hj ⊢
  dsimp only at hj ⊢
  rcases getD_append_mem hj with h2 | h2
  · have := h i j h2
    rw [List.length_append]
    omega
  · exact absurd h2 (Finset.not_mem_empty j)

theorem set_getD_mem {l : List (Finset Nat)} {a : Nat} {x : Finset Nat} {i j : Nat}
    (h : j ∈ (l.set a x).getD i ∅) : j ∈ x ∨ j ∈ l.getD i ∅ := by
  induction l generalizing a i with
  | nil =>
    rw [List.set_nil] at h
    exact Or.inr h
  | cons hd tl ih =>
    cases a with
    | zero =>
      cases i with
      | zero =>
        rw [List.set_cons_zero] at h
        exact Or.inl h
      | succ i2 =>
        rw [List.set_cons_zero] at h
        exact Or.inr h
    | succ a2 =>
      cases i with
      | zero =>
        rw [List.set_cons_succ] at h
        exact Or.inr h
      | succ i2 =>
        rw [List.set_cons_succ] at h
        exact ih h

theorem addEdge_EOk {s : BuildState} {a b : Nat} (h : EOk s)
    (hb : b < s.vals.length) : EOk (addEdge a b s) := by
  intro i j hj
  rw [addEdge] at hj ⊢
  dsimp only at hj ⊢
  rcases set_getD_mem hj with h2 | h2
  · rcases Finset.mem_insert.mp h2 with h3 | h3
    · exact h3 ▸ hb
    · exact h a j h3
  · exact h i j h2

theorem addEdge_vals (a b : Nat) (s : BuildState) : (addEdge a b s).vals = s.vals := rfl

theorem foldl_addEdge_vals (n : Nat) :
    ∀ (L : List Nat) (s : BuildState),
      (L.foldl (fun acc h => addEdge h n acc) s).vals = s.vals := by
  intro L
  induction L with
  | nil => intro s; rfl
  | cons hd tl ih =>
    intro s
    rw [List.foldl_cons, ih]
    rfl

theorem foldl_addEdge_EOk (n : Nat) :
    ∀ (L : List Nat) (s : BuildState), EOk s → n < s.vals.length →
      EOk (L.foldl (fun acc h => addEdge h n acc) s) := by
  intro L
  induction L with
  | nil => intro s h _; exact h
  | cons hd tl ih =>
    intro s h hn
    rw [List.foldl_cons]
    exact ih _ (addEdge_EOk h hn) (by rw [addEdge_vals]; exact hn)

theorem setHead_EOk {s : BuildState} {n : Nat} (h : EOk s)
    (hn : n < s.vals.length) : EOk (setHead n s) :=
  fun i j hj => foldl_addEdge_EOk n s.head s h hn i j hj

theorem setHead_vals (n : Nat) (s : BuildState) : (setHead n s).vals = s.vals := by
  rw [setHead]
  dsimp only
  rw [foldl_addEdge_vals]


theorem newNode_len (v : Option NodeVal) (s : BuildState) :
    (newNode v s).2.vals.length = s.vals.length + 1 := by
  rw [newNode]
  simp


mutual

theorem visitStmt_EOk (st : CStmt) (s : BuildState) (h : EOk s) :
    EOk (visitStmt st s) ∧ s.vals.length ≤ (visitStmt st s).vals.length := by
  cases st with
  | ifS test body orelse =>
    rw [visitStmt]
    set A := newNode (some (NodeVal.exprV test)) s with hA
    set s2 := setHead A.1 A.2 with hs2
    set s3 := visitStmts body s2 with hs3
    set s5 := visitStmts orelse { s3 with head := [A.1] } with hs5
    have hl2 : s2.vals.length = s.vals.length + 1 := by
      rw [hs2, setHead_vals, hA, newNode_len]
    have h2 : EOk s2 := by
      rw [hs2]
      apply setHead_EOk (newNode_EOk _ h)
      rw [hA, newNode_len]
      exact Nat.lt_succ_self _
    obtain ⟨h3, hl3⟩ := visitStmts_EOk body s2 h2
    rw [← hs3] at h3 hl3
    obtain ⟨h5, hl5⟩ := visitStmts_EOk orelse { s3 with head := [A.1] } h3
    rw [← hs5] at h5 hl5
    refine ⟨h5, ?_⟩
    show s.vals.length ≤ s5.vals.length
    have e1 : ({ s3 with head := [A.1] } : BuildState).vals.length
        = s3.vals.length := rfl
    omega
  | whileS test body orelse =>
    rw [visitStmt]
    set A := newNode (some (NodeVal.exprV test)) s with hA
    set s2 := setHead A.1 A.2 with hs2
    set s3 := { s2 with brks := [] :: s2.brks, conts := [] :: s2.conts } with hs3
    set s4 := visitStmts body s3 with hs4
    set s5 := setHead A.1
      { s4 with head := s4.head ++ (popTop s4.conts).1, conts := (popTop s4.conts).2 }
      with hs5
    set s6 := visitStmts orelse s5 with hs6
    have hl2 : s2.vals.length = s.vals.length + 1 := by
      rw [hs2, setHead_vals, hA, newNode_len]
    have h2 : EOk s2 := by
      rw [hs2]
      apply setHead_EOk (newNode_EOk _ h)
      rw [hA, newNode_len]
      exact Nat.lt_succ_self _
    have h3 : EOk s3 := h2
    obtain ⟨h4, hl4⟩ := visitStmts_EOk body s3 h3
    rw [← hs4] at h4 hl4
    have hl3 : s3.vals.length = s2.vals.length := rfl
    have h5 : EOk s5 := by
      rw [hs5]
      refine setHead_EOk ?_ ?_
      · exact h4
      · show A.1 < s4.vals.length
        have : A.1 = s.vals.length := by rw [hA]; rfl
        omega
    have hl5 : s5.vals.length = s4.vals.length := by
      rw [hs5, setHead_vals]
    obtain ⟨h6, hl6⟩ := visitStmts_EOk orelse s5 h5
    rw [← hs6] at h6 hl6
    refine ⟨h6, ?_⟩
    show s.vals.length ≤ s6.vals.length
    omega
  | forS tg it body orelse =>
    rw [visitStmt]
    set A := newNode (some (NodeVal.forV tg it)) s with hA
    set s2 := setHead A.1 A.2 with hs2
    set s3 := { s2 with brks := [] :: s2.brks, conts := [] :: s2.conts } with hs3
    set s4 := visitStmts body s3 with hs4
    set s5 := setHead A.1
      { s4 with head := s4.head ++ (popTop s4.conts).1, conts := (popTop s4.conts).2 }
      with hs5
    have hl2 : s2.vals.length = s.vals.length + 1 := by
      rw [hs2, setHead_vals, hA, newNode_len]
    have h2 : EOk s2 := by
      rw [hs2]
      apply setHead_EOk (newNode_EOk _ h)
      rw [hA, newNode_len]
      exact Nat.lt_succ_self _
    have h3 : EOk s3 := h2
    obtain ⟨h4, hl4⟩ := visitStmts_EOk body s3 h3
    rw [← hs4] at h4 hl4
    have hl3 : s3.vals.length = s2.vals.length := rfl
    have h5 : EOk s5 := by
      rw [hs5]
      refine setHead_EOk ?_ ?_
      · exact h4
      · show A.1 < s4.vals.length
        have : A.1 = s.vals.length := by rw [hA]; rfl
        omega
    have hl5 : s5.vals.length = s4.vals.length := by
      rw [hs5, setHead_vals]
    refine ⟨h5, ?_⟩
    show s.vals.length ≤ s5.vals.length
    omega
  | breakS => exact ⟨h, Nat.le_refl _⟩
  | continueS => exact ⟨h, Nat.le_refl _⟩
  | tryS body handlers orelse finalbody =>
    rw [visitStmt]
    set s1 := visitStmts body s with hs1
    set ph := visitHandlers handlers s1.head s1 with hph
    set s4 := visitStmts orelse { ph.2 with head := s1.head } with hs4
    obtain ⟨h1, hl1⟩ := visitStmts_EOk body s h
    rw [← hs1] at h1 hl1
    obtain ⟨h2, hl2⟩ := visitHandlers_EOk handlers s1.head s1 h1
    rw [← hph] at h2 hl2
    obtain ⟨h4, hl4⟩ := visitStmts_EOk orelse { ph.2 with head := s1.head } h2
    rw [← hs4] at h4 hl4
    obtain ⟨h6, hl6⟩ := visitStmts_EOk finalbody { s4 with head := ph.1 ++ s4.head } h4
    refine ⟨h6, ?_⟩
    have e1 : ({ ph.2 with head := s1.head } : BuildState).vals.length
        = ph.2.vals.length := rfl
    have e2 : ({ s4 with head := ph.1 ++ s4.head } : BuildState).vals.length
        = s4.vals.length := rfl
    omega
  | plain v =>
    rw [visitStmt]
    refine ⟨?_, ?_⟩
    · apply setHead_EOk (newNode_EOk _ h)
      rw [newNode_len]
      exact Nat.lt_succ_self _
    · rw [setHead_vals, newNode_len]
      omega

theorem visitStmts_EOk (l : List CStmt) (s : BuildState) (h : EOk s) :
    EOk (visitStmts l s) ∧ s.vals.length ≤ (visitStmts l s).vals.length := by
  cases l with
  | nil =>
    rw [visitStmts]
    exact ⟨h, Nat.le_refl _⟩
  | cons st t =>
    rw [visitStmts]
    obtain ⟨h1, hl1⟩ := visitStmt_EOk st s h
    obtain ⟨h2, hl2⟩ := visitStmts_EOk t (visitStmt st s) h1
    exact ⟨h2, Nat.le_trans hl1 hl2⟩

theorem visitHandlers_EOk (hs : List (List CStmt)) (be : List Nat)
    (s : BuildState) (h : EOk s) :
    EOk (visitHandlers hs be s).2
      ∧ s.vals.length ≤ (visitHandlers hs be s).2.vals.length := by
  cases hs with
  | nil =>
    rw [visitHandlers]
    exact ⟨h, Nat.le_refl _⟩
  | cons h1 t =>
    rw [visitHandlers]
    obtain ⟨ha, hla⟩ := visitStmts_EOk h1 { s with head := be } h
    obtain ⟨hb, hlb⟩ := visitHandlers_EOk t be (visitStmts h1 { s with head := be }) ha
    have e1 : ({ s with head := be } : BuildState).vals.length = s.vals.length := rfl
    refine ⟨hb, ?_⟩
    show s.vals.length ≤ (visitHandlers t be (visitStmts h1 { s with head := be })).2.vals.length
    omega

end


theorem build_cfg_edges (params : List String) (body : List CStmt) :
    (∀ n m, m ∈ (build_cfg params body).nextF n → m < (build_cfg params body).vals.length)
    ∧ 0 < (build_cfg params body).vals.length
    ∧ (build_cfg params body).prevs
        = backlink (build_cfg params body).nextF (build_cfg params body).vals.length 0 := by
  unfold build_cfg
  set s0 : BuildState :=
    { vals := [some (.argsV params)], nexts := [∅], head := [0],
      brks := [], conts := [] } with hs0
  set s1 := visitStmts body s0 with hs1
  set A := newNode none s1 with hA
  set s3 := setHead A.1 A.2 with hs3
  have h0 : EOk s0 := by
    intro i j hj
    have he : s0.nexts.getD i ∅ = ∅ := by
      rw [hs0]
      cases i with
      | zero => rfl
      | succ i2 => cases i2 <;> rfl
    rw [he] at hj
    exact absurd hj (Finset.not_mem_empty j)
  obtain ⟨h1, hl1⟩ := visitStmts_EOk body s0 h0
  rw [← hs1] at h1 hl1
  have h3 : EOk s3 := by
    rw [hs3]
    apply setHead_EOk (newNode_EOk _ h1)
    rw [hA, newNode_len]
    exact Nat.lt_succ_self _
  have hv : s3.vals.length = s1.vals.length + 1 := by
    rw [hs3, setHead_vals, hA, newNode_len]
  have hs0len : s0.vals.length = 1 := by rw [hs0]; rfl
  refine ⟨?_, ?_, ?_⟩
  · intro n m hm
    exact h3 n m hm
  · show 0 < s3.vals.length
    omega
  · rfl

/-- C7.  In the CFG produced by `build_cfg` - `next` populated during
construction, `prev` derived afterwards by the `backlink` traversal from the
entry on initially empty `prev` sets - for any two nodes reachable from the
entry, `b ∈ a.next` iff `a ∈ b.prev`: `prev` is the exact transpose of
`next` over the reachable graph, cycles included. -/
theorem claim_C7 (params : List String) (body : List CStmt) (a b : Nat)
    (ha : Reach (build_cfg params body).nextF 0 a)
    (hb : Reach (build_cfg params body).nextF 0 b) :
    b ∈ (build_cfg params body).nextF a ↔ a ∈ (build_cfg params body).prevs b := by
  obtain ⟨hg, hpos, hprev⟩ := build_cfg_edges params body
  rw [hprev]
  constructor
  · intro h
    exact (backlink_prevs hg hpos b a).mpr ⟨ha, h⟩
  · intro h
    exact ((backlink_prevs hg hpos b a).mp h).2

/-- C7 witness: the empty function body, whose CFG is entry → exit. -/
theorem claim_C7_witness :
    Reach (build_cfg [] ([] : List CStmt)).nextF 0 0
    ∧ Reach (build_cfg [] ([] : List CStmt)).nextF 0 1
    ∧ (1 ∈ (build_cfg [] ([] : List CStmt)).nextF 0
        ↔ 0 ∈ (build_cfg [] ([] : List CStmt)).prevs 1) := by
  have hn : (build_cfg [] ([] : List CStmt)).nextF 0 = {1} := by
    simp [build_cfg, visitStmts, newNode, setHead, addEdge, CFGraph.nextF]
  have h1 : Reach (build_cfg [] ([] : List CStmt)).nextF 0 0 :=
    Relation.ReflTransGen.refl
  have h2 : Reach (build_cfg [] ([] : List CStmt)).nextF 0 1 := by
    apply Relation.ReflTransGen.single
    rw [hn]
    decide
  exact ⟨h1, h2, claim_C7 [] [] 0 1 h1 h2⟩


/-- The builder state `build_cfg` starts from (empty parameter list), used
as the start state of concrete counterexamples. -/
def bs0 : BuildState :=
  { vals := [some (.argsV [])], nexts := [∅], head := [0], brks := [], conts := [] }

/-- The While-loop contract as claim C3 states it (header linked to the
frontier, body from the header, continue targets back into the header, else
clause visited from exactly the header, frontier afterwards = else exit
plus collected break targets, collectors popped).  Written from the spec\'s
words, to be compared with the source translation `visitStmt`. -/
def visitWhileClaim (test : CExpr) (body orelse : List CStmt)
    (s : BuildState) : BuildState :=
  let p := newNode (some (.exprV test)) s
  let s2 := setHead p.1 p.2
  let s3 := { s2 with brks := [] :: s2.brks, conts := [] :: s2.conts }
  let s4 := visitStmts body s3
  let c := popTop s4.conts
  let s5 := setHead p.1 { s4 with head := s4.head ++ c.1, conts := c.2 }
  let s6 := visitStmts orelse s5
  let b := popTop s6.brks
  { s6 with head := s6.head ++ b.1, brks := b.2 }

/-- C3 counterexample.  On a `for` loop with a non-empty else clause
(body `pass`, else `pass`, under an entry node), the source builder
allocates 3 nodes (entry, loop header, body statement) and never visits the
else clause, while the claimed contract would allocate 4; the two disagree
on this concrete input. -/
theorem claim_C3_counterexample :
    (visitStmt (CStmt.forS CExpr.const CExpr.const [CStmt.plain NodeVal.otherV]
        [CStmt.plain NodeVal.otherV]) bs0).vals.length = 3
    ∧ (visitForClaim CExpr.const CExpr.const [CStmt.plain NodeVal.otherV]
        [CStmt.plain NodeVal.otherV] bs0).vals.length = 4
    ∧ visitStmt (CStmt.forS CExpr.const CExpr.const [CStmt.plain NodeVal.otherV]
        [CStmt.plain NodeVal.otherV]) bs0
      ≠ visitForClaim CExpr.const CExpr.const [CStmt.plain NodeVal.otherV]
        [CStmt.plain NodeVal.otherV] bs0 := by
  have e1 : (visitStmt (CStmt.forS CExpr.const CExpr.const
      [CStmt.plain NodeVal.otherV] [CStmt.plain NodeVal.otherV]) bs0).vals.length
      = 3 := by
    simp [visitStmt, visitStmts, newNode, setHead, addEdge, popTop, pushTop, bs0]
  have e2 : (visitForClaim CExpr.const CExpr.const [CStmt.plain NodeVal.otherV]
      [CStmt.plain NodeVal.otherV] bs0).vals.length = 4 := by
    simp [visitForClaim, visitStmt, visitStmts, newNode, setHead, addEdge,
      popTop, pushTop, bs0]
  refine ⟨e1, e2, ?_⟩
  intro heq
  have hlen := congrArg (fun st => st.vals.length) heq
  simp only at hlen
  rw [e1, e2] at hlen
  exact absurd hlen (by decide)

/-- C3 amended.  The condition-tested loop follows the claimed contract
exactly (else clause visited from the header alone, frontier afterwards =
else exit plus collected break targets); the iterator-based loop never
visits its else clause at all - processing it is identical to processing
the same loop with the else clause deleted, and the frontier afterwards is
the header plus collected break targets. -/
theorem claim_C3 :
    (∀ (test : CExpr) (body orelse : List CStmt) (s : BuildState),
      visitStmt (.whileS test body orelse) s = visitWhileClaim test body orelse s)
    ∧ (∀ (tg it : CExpr) (body orelse : List CStmt) (s : BuildState),
      visitStmt (.forS tg it body orelse) s = visitStmt (.forS tg it body []) s) := by
  constructor
  · intro test body orelse s
    rw [visitStmt]
    unfold visitWhileClaim
    rfl
  · intro tg it body orelse s
    rw [visitStmt]
    rw [visitStmt]

/-- The exception-block contract as claim C4 amends it: the else clause is
visited from the saved body exit alone; only then does the frontier become
the accumulated handler exits prepended to the else-clause exit, from which
the finally clause is visited. -/
def visitTryAmended (body : List CStmt) (handlers : List (List CStmt))
    (orelse finalbody : List CStmt) (s : BuildState) : BuildState :=
  let s1 := visitStmts body s
  let bodyExit := s1.head
  let ph := visitHandlers handlers bodyExit s1
  let s3 := { ph.2 with head := bodyExit }
  let s4 := visitStmts orelse s3
  let s5 := { s4 with head := ph.1 ++ s4.head }
  visitStmts finalbody s5

/-- C4 counterexample.  On `try: pass / except: pass / else: pass /
finally: pass` under an entry node, the handler node (index 2) has successor
set `{4}` (the finally node) in the built graph, while the claimed contract
- handlers prepended to the frontier BEFORE the else clause is visited -
would give it successor set `{3}` (the else node); the two disagree on this
concrete input. -/
theorem claim_C4_counterexample :
    (visitStmt (CStmt.tryS [CStmt.plain NodeVal.otherV] [[CStmt.plain NodeVal.otherV]]
        [CStmt.plain NodeVal.otherV] [CStmt.plain NodeVal.otherV]) bs0).nexts.getD 2 ∅
      = {4}
    ∧ (visitTryClaim [CStmt.plain NodeVal.otherV] [[CStmt.plain NodeVal.otherV]]
        [CStmt.plain NodeVal.otherV] [CStmt.plain NodeVal.otherV] bs0).nexts.getD 2 ∅
      = {3}
    ∧ visitStmt (CStmt.tryS [CStmt.plain NodeVal.otherV] [[CStmt.plain NodeVal.otherV]]
        [CStmt.plain NodeVal.otherV] [CStmt.plain NodeVal.otherV]) bs0
      ≠ visitTryClaim [CStmt.plain NodeVal.otherV] [[CStmt.plain NodeVal.otherV]]
        [CStmt.plain NodeVal.otherV] [CStmt.plain NodeVal.otherV] bs0 := by
  have e1 : (visitStmt (CStmt.tryS [CStmt.plain NodeVal.otherV]
      [[CStmt.plain NodeVal.otherV]] [CStmt.plain NodeVal.otherV]
      [CStmt.plain NodeVal.otherV]) bs0).nexts.getD 2 ∅ = {4} := by
    simp [visitStmt, visitStmts, visitHandlers, newNode, setHead, addEdge,
      popTop, pushTop, bs0]
  have e2 : (visitTryClaim [CStmt.plain NodeVal.otherV] [[CStmt.plain NodeVal.otherV]]
      [CStmt.plain NodeVal.otherV] [CStmt.plain NodeVal.otherV] bs0).nexts.getD 2 ∅
      = {3} := by
    simp [visitTryClaim, visitStmt, visitStmts, visitHandlers, newNode, setHead,
      addEdge, popTop, pushTop, bs0]
  refine ⟨e1, e2, ?_⟩
  intro heq
  have hx := congrArg (fun st => st.nexts.getD 2 ∅) heq
  simp only at hx
  rw [e1, e2] at hx
  have : (4 : Nat) ∈ ({3} : Finset Nat) := by rw [← hx]; decide
  exact absurd this (by decide)

/-- C4 amended.  After visiting the body (saving its exit frontier) and
each handler independently from a copy of that saved exit, the else clause
is visited from the saved body exit ALONE; the frontier then becomes the
accumulated handler exits prepended to the else-clause exit frontier, and
the finally clause is visited from that combined frontier, so every path
out of the construct passes through the finally-clause nodes. -/
theorem claim_C4 :
    ∀ (body : List CStmt) (handlers : List (List CStmt))
      (orelse finalbody : List CStmt) (s : BuildState),
      visitStmt (.tryS body handlers orelse finalbody) s
        = visitTryAmended body handlers orelse finalbody s := by
  intro body handlers orelse finalbody s
  rw [visitStmt]
  unfold visitTryAmended
  rfl


/-!
### Straight-line CFGs (claim C5)

For a body of plain statements the builder produces the chain
entry → stmt 1 → ... → stmt N → exit.
-/

/-- Successor lists of a chain: node `i` points at `i + 1` for `i < m`. -/
def chainNexts (m : Nat) : List (Finset Nat) :=
  (List.range m).map (fun i => {i + 1})

theorem chainNexts_length (m : Nat) : (chainNexts m).length = m := by
  simp [chainNexts]

theorem chainNexts_succ (m : Nat) : chainNexts (m + 1) = chainNexts m ++ [{m + 1}] := by
  simp [chainNexts, List.range_succ]

theorem chainNexts_getD {j m : Nat} (h : j < m) :
    (chainNexts m).getD j ∅ = {j + 1} := by
  rw [chainNexts]
  rw [List.getD_eq_getElem?_getD]
  rw [List.getElem?_map]
  rw [List.getElem?_range h]
  rfl

theorem set_append_of_len {α : Type} {l : List α} {m : Nat} (l2 : List α) (a : α)
    (h : l.length = m) : (l ++ l2).set m a = l ++ l2.set 0 a := by
  induction l generalizing m with
  | nil =>
    subst h
    rfl
  | cons hd tl ih =>
    subst h
    rw [List.cons_append, List.length_cons, List.set_cons_succ, ih rfl]
    rw [List.cons_append]

/-- The effect of one plain-statement step (or the final exit-node step) on
a chain-shaped builder state. -/
theorem step_once (v : Option NodeVal) (m : Nat) (vals : List (Option NodeVal))
    (bs cs : List (List Nat)) (hlen : vals.length = m + 1) :
    setHead
        (newNode v
          { vals := vals, nexts := chainNexts m ++ [∅], head := [m],
            brks := bs, conts := cs }).1
        (newNode v
          { vals := vals, nexts := chainNexts m ++ [∅], head := [m],
            brks := bs, conts := cs }).2
      = { vals := vals ++ [v], nexts := chainNexts (m + 1) ++ [∅], head := [m + 1],
          brks := bs, conts := cs } := by
  simp only [newNode, setHead, addEdge]
  simp only [List.foldl_cons, List.foldl_nil]
  rw [hlen]
  have hassoc : (chainNexts m ++ [∅]) ++ [∅] = chainNexts m ++ [∅, ∅] := by
    rw [List.append_assoc]
    rfl
  rw [hassoc]
  have hget : (chainNexts m ++ [∅, ∅]).getD m ∅ = ∅ := by
    rw [List.getD_append_right _ _ _ _ (le_of_eq (chainNexts_length m))]
    rw [chainNexts_length, Nat.sub_self]
    rfl
  rw [hget]
  have hset : (chainNexts m ++ [∅, ∅]).set m (insert (m + 1) ∅)
      = chainNexts (m + 1) ++ [∅] := by
    rw [set_append_of_len _ _ (chainNexts_length m)]
    rw [chainNexts_succ, List.append_assoc]
    rw [insert_emptyc_eq]
    rfl
  rw [hset]

theorem visitStmts_plains (vs : List NodeVal) :
    ∀ (m : Nat) (vals : List (Option NodeVal)) (bs cs : List (List Nat)),
      vals.length = m + 1 →
      visitStmts (vs.map CStmt.plain)
        { vals := vals, nexts := chainNexts m ++ [∅], head := [m],
          brks := bs, conts := cs }
      = { vals := vals ++ vs.map some,
          nexts := chainNexts (m + vs.length) ++ [∅],
          head := [m + vs.length], brks := bs, conts := cs } := by
  induction vs with
  | nil =>
    intro m vals bs cs hlen
    rw [List.map_nil, visitStmts]
    simp
  | cons v t ih =>
    intro m vals bs cs hlen
    rw [List.map_cons, visitStmts]
    have hstep : visitStmt (.plain v)
          { vals := vals, nexts := chainNexts m ++ [∅], head := [m],
            brks := bs, conts := cs }
        = { vals := vals ++ [some v], nexts := chainNexts (m + 1) ++ [∅],
            head := [m + 1], brks := bs, conts := cs } := by
      rw [visitStmt]
      exact step_once (some v) m vals bs cs hlen
    rw [hstep]
    rw [ih (m + 1) (vals ++ [some v]) bs cs (by simp [hlen])]
    have h1 : (vals ++ [some v]) ++ t.map some = vals ++ (v :: t).map some := by
      simp
    have h2 : m + 1 + t.length = m + (v :: t).length := by
      simp
      omega
    rw [h1, h2]

theorem build_cfg_plains (params : List String) (vs : List NodeVal) :
    (build_cfg params (vs.map CStmt.plain)).vals
      = (some (NodeVal.argsV params) :: vs.map some) ++ [none]
    ∧ (build_cfg params (vs.map CStmt.plain)).nexts
      = chainNexts (vs.length + 1) ++ [∅] := by
  unfold build_cfg
  dsimp only
  have h0 : ({ vals := [some (.argsV params)], nexts := [∅], head := [0],
               brks := [], conts := [] } : BuildState)
      = { vals := [some (.argsV params)], nexts := chainNexts 0 ++ [∅], head := [0],
          brks := [], conts := [] } := rfl
  rw [h0]
  rw [visitStmts_plains vs 0 [some (NodeVal.argsV params)] [] [] rfl]
  have h2 : (0 : Nat) + vs.length = vs.length := Nat.zero_add _
  rw [h2]
  have hlen2 : ([some (NodeVal.argsV params)] ++ vs.map some).length
      = vs.length + 1 := by
    simp
  rw [step_once none vs.length ([some (NodeVal.argsV params)] ++ vs.map some) [] [] hlen2]
  constructor
  · show ([some (NodeVal.argsV params)] ++ vs.map some) ++ [none]
      = (some (NodeVal.argsV params) :: vs.map some) ++ [none]
    simp
  · rfl

/-- C5 counterexample.  A function with a single plain statement builds a
CFG with 3 nodes (entry wrapping the parameter list, the statement, and the
sentinel exit), not the claimed N + 1 = 2. -/
theorem claim_C5_counterexample :
    (build_cfg [] [CStmt.plain NodeVal.otherV]).vals.length = 3
    ∧ (build_cfg [] [CStmt.plain NodeVal.otherV]).vals.length ≠ 1 + 1 := by
  have e : (build_cfg [] [CStmt.plain NodeVal.otherV]).vals.length = 3 := by
    simp [build_cfg, visitStmts, visitStmt, newNode, setHead, addEdge]
  exact ⟨e, by rw [e]; decide⟩

/-- C5 amended.  For a function body of N plain statements, the built CFG
has N + 2 nodes (entry, the N statements, and the sentinel exit), and every
node other than the entry and the exit - node `i` with `1 ≤ i ≤ N` - has
exactly one successor (`i + 1`) and exactly one predecessor (`i - 1`). -/
theorem claim_C5 (params : List String) (vs : List NodeVal) (i : Nat)
    (h1 : 1 ≤ i) (h2 : i ≤ vs.length) :
    (build_cfg params (vs.map CStmt.plain)).vals.length = vs.length + 2
    ∧ (build_cfg params (vs.map CStmt.plain)).nextF i = {i + 1}
    ∧ (build_cfg params (vs.map CStmt.plain)).prevs i = {i - 1}
    ∧ ((build_cfg params (vs.map CStmt.plain)).nextF i).card = 1
    ∧ ((build_cfg params (vs.map CStmt.plain)).prevs i).card = 1 := by
  obtain ⟨hgE, hpos, hprevEq⟩ := build_cfg_edges params (vs.map CStmt.plain)
  obtain ⟨hv, hn⟩ := build_cfg_plains params vs
  have hlen : (build_cfg params (vs.map CStmt.plain)).vals.length = vs.length + 2 := by
    rw [hv]
    simp
  have hnextF : ∀ j, (build_cfg params (vs.map CStmt.plain)).nextF j
      = (chainNexts (vs.length + 1) ++ [∅]).getD j ∅ := by
    intro j
    rw [CFGraph.nextF, hn]
  have hchain : ∀ j, j < vs.length + 1 →
      (build_cfg params (vs.map CStmt.plain)).nextF j = {j + 1} := by
    intro j hj
    rw [hnextF j]
    rw [List.getD_append _ _ _ _ (by rw [chainNexts_length]; exact hj)]
    exact chainNexts_getD hj
  have hbeyond : ∀ j, vs.length + 1 ≤ j →
      (build_cfg params (vs.map CStmt.plain)).nextF j = ∅ := by
    intro j hj
    rw [hnextF j]
    rw [List.getD_append_right _ _ _ _ (by rw [chainNexts_length]; exact hj)]
    rcases Nat.eq_or_lt_of_le hj with he | hlt
    · rw [← he, chainNexts_length, Nat.sub_self]
      rfl
    · rw [List.getD_eq_default]
      simp
      rw [chainNexts_length]
      omega
  have hreach : ∀ k, k ≤ vs.length + 1 →
      Reach (build_cfg params (vs.map CStmt.plain)).nextF 0 k := by
    intro k
    induction k with
    | zero => intro _; exact Relation.ReflTransGen.refl
    | succ k2 ih =>
      intro hk
      refine Relation.ReflTransGen.tail (ih (by omega)) ?_
      rw [hchain k2 (by omega)]
      exact Finset.mem_singleton_self _
  have hprev : (build_cfg params (vs.map CStmt.plain)).prevs i = {i - 1} := by
    rw [hprevEq]
    ext q
    rw [backlink_prevs hgE hpos, Finset.mem_singleton]
    constructor
    · rintro ⟨hr, hq⟩
      by_cases hcase : q < vs.length + 1
      · rw [hchain q hcase] at hq
        rw [Finset.mem_singleton] at hq
        omega
      · rw [hbeyond q (by omega)] at hq
        exact absurd hq (Finset.not_mem_empty i)
    · intro hq
      subst hq
      refine ⟨hreach (i - 1) (by omega), ?_⟩
      rw [hchain (i - 1) (by omega)]
      rw [Finset.mem_singleton]
      omega
  refine ⟨hlen, hchain i (by omega), hprev, ?_, ?_⟩
  · rw [hchain i (by omega)]
    exact Finset.card_singleton _
  · rw [hprev]
    exact Finset.card_singleton _

/-- C5 witness: the amended theorem applied to a one-statement body at the
middle node `i = 1`. -/
theorem claim_C5_witness :
    1 ≤ 1 ∧ 1 ≤ [NodeVal.otherV].length
    ∧ ((build_cfg [] ([NodeVal.otherV].map CStmt.plain)).vals.length
        = [NodeVal.otherV].length + 2
      ∧ (build_cfg [] ([NodeVal.otherV].map CStmt.plain)).nextF 1 = {2}
      ∧ (build_cfg [] ([NodeVal.otherV].map CStmt.plain)).prevs 1 = {0}
      ∧ ((build_cfg [] ([NodeVal.otherV].map CStmt.plain)).nextF 1).card = 1
      ∧ ((build_cfg [] ([NodeVal.otherV].map CStmt.plain)).prevs 1).card = 1) :=
  ⟨Nat.le_refl 1, by decide, claim_C5 [] [NodeVal.otherV] 1 (by decide) (by decide)⟩


/-!
### Forward dataflow engine (`tangent/cfg.py`, class `Forward`)

The engine is generic: a graph of node indices, each with an optional
statement value, `prev`/`next` edge lists (the iteration order of the
Python sets), and an analysis given by a gen/kill function plus the meet
operator - `operator.or_` or `operator.and_`, per the `Forward` docstring.
The four annotation labels `label_in`, `label_out`, `label_gen`,
`label_kill` become the four partial maps of `FState` (tangent keys the
store by the identity of the CFG node\'s AST value; distinct CFG nodes wrap
distinct AST nodes, so the node index is a faithful key).  The annotation
store itself (`tangent/annotations.py`) is outside the analyzed sources and
is modelled from the spec\'s `get`/`set`/`has` contract; `hash` equality of
two frozensets is modelled as set equality. -/

/-- The meet operator of a `Forward` analysis. -/
inductive MeetOp : Type where
  | orOp
  | andOp
deriving DecidableEq

/-- Application of the meet operator to two fact sets. -/
def MeetOp.app {α : Type} [DecidableEq α] : MeetOp → Finset α → Finset α → Finset α
  | .orOp, a, b => a ∪ b
  | .andOp, a, b => a ∩ b

/-- A forward dataflow problem: the CFG (node count `N`, per-node optional
value, successor and predecessor lists) and the analysis (`gen` returning
the generated and killed sets, and the meet `op`). -/
structure FGraph (τ α : Type) : Type where
  N : Nat
  value : Nat → Option τ
  nextL : Nat → List Nat
  prevL : Nat → List Nat
  gen : Nat → τ → Finset α → Finset α × Finset α
  op : MeetOp

/-- The annotation state of one analysis run: the four labels per node,
plus the function-level result recorded at the sentinel exit. -/
structure FState (α : Type) : Type where
  inn : Nat → Option (Finset α)
  genn : Nat → Option (Finset α)
  killn : Nat → Option (Finset α)
  outn : Nat → Option (Finset α)
  exitv : Option (Finset α)

/-- The fresh state before a run: no annotations stored. -/
def initFState (α : Type) : FState α :=
  { inn := fun _ => none, genn := fun _ => none, killn := fun _ => none,
    outn := fun _ => none, exitv := none }

/-- The predecessors that currently have a stored outgoing set. -/
def storedPreds {τ α : Type} (G : FGraph τ α) (s : FState α) (n : Nat) : List Nat :=
  (G.prevL n).filter (fun p => (s.outn p).isSome)

/-- `functools.reduce(self.op, preds[1:], preds[0])` over the outgoing sets
of the stored predecessors, defaulting to the empty set when there are
none. -/
def incomingOf {τ α : Type} [DecidableEq α] (G : FGraph τ α) (s : FState α)
    (n : Nat) : Finset α :=
  match storedPreds G s n with
  | [] => ∅
  | h :: t =>
    t.foldl (fun acc p => G.op.app acc ((s.outn p).getD ∅)) ((s.outn h).getD ∅)

/-- `(incoming - kill) | gen` for the node\'s gen/kill result. -/
def applyGK {τ α : Type} [DecidableEq α] (G : FGraph τ α) (n : Nat) (v : τ)
    (inc : Finset α) : Finset α :=
  (inc \ (G.gen n v inc).2) ∪ (G.gen n v inc).1

/-- One propagate step of `Forward.visit` at a node with a value: compute
the incoming set, gen and kill, store the four labels, and report whether
the stored outgoing set changed (Python compares the hashes of the old and
new frozensets; `None` when no set was stored). -/
def visitStep {τ α : Type} [DecidableEq α] (G : FGraph τ α) (s : FState α)
    (n : Nat) (v : τ) : FState α × Bool :=
  let before := s.outn n
  let incoming := incomingOf G s n
  let gk := G.gen n v incoming
  let newOut := (incoming \ gk.2) ∪ gk.1
  ({ inn := fun m => if m = n then some incoming else s.inn m
     genn := fun m => if m = n then some gk.1 else s.genn m
     killn := fun m => if m = n then some gk.2 else s.killn m
     outn := fun m => if m = n then some newOut else s.outn m
     exitv := s.exitv },
   decide (before ≠ some newOut))

/-- The sentinel-exit branch of `Forward.visit`: meet the predecessors\'
outgoing sets and record the function-level result.  The source reads every
predecessor\'s annotation with no `hasanno` guard; `annotations.py` is not
among the analyzed sources, so a missing set is modelled as contributing
the empty set (neither C1 nor C2 depends on the value recorded here). -/
def exitMeet {τ α : Type} [DecidableEq α] (G : FGraph τ α) (s : FState α)
    (n : Nat) : Finset α :=
  match (G.prevL n).map (fun p => (s.outn p).getD ∅) with
  | [] => ∅
  | h :: t => t.foldl (fun acc x => G.op.app acc x) h

mutual

/-- `Forward.visit(node)`, with an explicit recursion budget: at a node
with a value, run the propagate step and recurse into every successor iff
the outgoing set changed; at the sentinel exit, record the meet of the
predecessors\' outgoing sets.  `none` means the budget ran out. -/
def visitF {τ α : Type} [DecidableEq α] (G : FGraph τ α) :
    Nat → FState α → Nat → Option (FState α)
  | 0, _, _ => none
  | f + 1, s, n =>
    match G.value n with
    | some v =>
      let r := visitStep G s n v
      if r.2 then visitL G f r.1 (G.nextL n) else some r.1
    | none => some { s with exitv := some (exitMeet G s n) }
termination_by f => (f, 0)

/-- `for succ in node.next: self.visit(succ)`. -/
def visitL {τ α : Type} [DecidableEq α] (G : FGraph τ α) :
    Nat → FState α → List Nat → Option (FState α)
  | _, s, [] => some s
  | f, s, n :: t =>
    match visitF G f s n with
    | some s2 => visitL G f s2 t
    | none => none
termination_by f _ l => (f, l.length + 1)

end


theorem foldl_union_mem {α : Type} [DecidableEq α] (f : Nat → Finset α) (x : α) :
    ∀ (t : List Nat) (init : Finset α),
      (x ∈ t.foldl (fun acc p => acc ∪ f p) init ↔ x ∈ init ∨ ∃ p ∈ t, x ∈ f p) := by
  intro t
  induction t with
  | nil => simp
  | cons h t2 ih =>
    intro init
    rw [List.foldl_cons, ih]
    simp [Finset.mem_union]
    tauto

theorem foldl_inter_mem {α : Type} [DecidableEq α] (f : Nat → Finset α) (x : α) :
    ∀ (t : List Nat) (init : Finset α),
      (x ∈ t.foldl (fun acc p => acc ∩ f p) init ↔ x ∈ init ∧ ∀ p ∈ t, x ∈ f p) := by
  intro t
  induction t with
  | nil => simp
  | cons h t2 ih =>
    intro init
    rw [List.foldl_cons, ih]
    simp [Finset.mem_inter]
    tauto

/-- C1.  One propagate step of the engine at a node with a (statement)
value: the incoming set is the meet - the analysis\'s `op` - of the stored
outgoing sets of exactly those predecessors that have one (the empty set
when none has); the four labels store incoming, generated, killed and
`(incoming - killed) | generated`; annotations of every other node are
untouched; and the engine recurses into the successors iff the newly
stored outgoing set differs from the previously stored one (or none was
stored). -/
theorem claim_C1 {τ α : Type} [DecidableEq α] (G : FGraph τ α) (s : FState α)
    (f : Nat) (n : Nat) (v : τ) (hv : G.value n = some v) :
    (G.op = .orOp → ∀ x, (x ∈ incomingOf G s n ↔
        ∃ p ∈ storedPreds G s n, x ∈ (s.outn p).getD ∅))
    ∧ (G.op = .andOp → ∀ x, (x ∈ incomingOf G s n ↔
        (storedPreds G s n ≠ [] ∧ ∀ p ∈ storedPreds G s n, x ∈ (s.outn p).getD ∅)))
    ∧ (visitStep G s n v).1.inn n = some (incomingOf G s n)
    ∧ (visitStep G s n v).1.genn n = some (G.gen n v (incomingOf G s n)).1
    ∧ (visitStep G s n v).1.killn n = some (G.gen n v (incomingOf G s n)).2
    ∧ (visitStep G s n v).1.outn n = some (applyGK G n v (incomingOf G s n))
    ∧ (∀ m, m ≠ n → (visitStep G s n v).1.inn m = s.inn m
        ∧ (visitStep G s n v).1.genn m = s.genn m
        ∧ (visitStep G s n v).1.killn m = s.killn m
        ∧ (visitStep G s n v).1.outn m = s.outn m)
    ∧ ((visitStep G s n v).2 = true
        ↔ s.outn n ≠ some (applyGK G n v (incomingOf G s n)))
    ∧ visitF G (f + 1) s n
        = (if (visitStep G s n v).2 then visitL G f (visitStep G s n v).1 (G.nextL n)
           else some (visitStep G s n v).1) := by
  refine ⟨?_, ?_, ?_, ?_, ?_, ?_, ?_, ?_, ?_⟩
  · intro hop x
    rw [incomingOf]
    cases hpd : storedPreds G s n with
    | nil => simp
    | cons h t =>
      rw [hop]
      have happ : (fun acc p => MeetOp.orOp.app acc ((s.outn p).getD ∅))
          = fun acc p => acc ∪ (fun q => (s.outn q).getD ∅) p := rfl
      rw [happ, foldl_union_mem]
      simp
  · intro hop x
    rw [incomingOf]
    cases hpd : storedPreds G s n with
    | nil => simp
    | cons h t =>
      rw [hop]
      have happ : (fun acc p => MeetOp.andOp.app acc ((s.outn p).getD ∅))
          = fun acc p => acc ∩ (fun q => (s.outn q).getD ∅) p := rfl
      rw [happ, foldl_inter_mem]
      simp
  · simp [visitStep]
  · simp [visitStep]
  · simp [visitStep]
  · simp [visitStep, applyGK]
  · intro m hmn
    refine ⟨?_, ?_, ?_, ?_⟩ <;> simp [visitStep, hmn]
  · rw [visitStep]
    simp [applyGK]
  · rw [visitF, hv]

/-- A two-node graph (one statement node, the sentinel exit) with the
trivial may analysis, used to instantiate the engine theorems. -/
def Gw : FGraph Unit Nat where
  N := 2
  value := fun n => if n = 0 then some () else none
  nextL := fun n => if n = 0 then [1] else []
  prevL := fun n => if n = 1 then [0] else []
  gen := fun _ _ _ => (∅, ∅)
  op := .orOp

/-- C1 witness: the propagate step applied on the concrete graph `Gw` at
its statement node, from the fresh state. -/
theorem claim_C1_witness :
    Gw.value 0 = some ()
    ∧ visitF Gw 1 (initFState Nat) 0
        = (if (visitStep Gw (initFState Nat) 0 ()).2
           then visitL Gw 0 (visitStep Gw (initFState Nat) 0 ()).1 (Gw.nextL 0)
           else some (visitStep Gw (initFState Nat) 0 ()).1) :=
  ⟨rfl, (claim_C1 Gw (initFState Nat) 0 0 () rfl).2.2.2.2.2.2.2.2⟩


/-!
### Termination of the revisit-on-change propagation (claim C2)

Along a run of a well-formed analysis every stored outgoing set moves
monotonically in the direction of the meet (`dle`): it grows for a may
analysis and shrinks for a must analysis.  A potential function bounded by
the finite fact universe then decreases at every visit that changes an
outgoing set, which bounds the recursion depth.
-/

/-- The progress order of a meet operator: fact sets only grow along a may
analysis and only shrink along a must analysis. -/
def dle {α : Type} (op : MeetOp) (a b : Finset α) : Prop :=
  match op with
  | .orOp => a ⊆ b
  | .andOp => b ⊆ a

theorem dle_refl {α : Type} (op : MeetOp) (a : Finset α) : dle op a a := by
  cases op <;> exact Finset.Subset.refl a

theorem dle_trans {α : Type} {op : MeetOp} {a b c : Finset α}
    (h1 : dle op a b) (h2 : dle op b c) : dle op a c := by
  cases op
  · exact Finset.Subset.trans h1 h2
  · exact Finset.Subset.trans h2 h1

/-- Pointwise progress of the stored outgoing sets between two states. -/
def sLE {α : Type} (op : MeetOp) (s s2 : FState α) : Prop :=
  ∀ p o, s.outn p = some o → ∃ o2, s2.outn p = some o2 ∧ dle op o o2

theorem sLE_refl {α : Type} (op : MeetOp) (s : FState α) : sLE op s s :=
  fun p o h => ⟨o, h, dle_refl op o⟩

theorem sLE_trans {α : Type} {op : MeetOp} {s1 s2 s3 : FState α}
    (h1 : sLE op s1 s2) (h2 : sLE op s2 s3) : sLE op s1 s3 := by
  intro p o h
  obtain ⟨o2, he2, hd2⟩ := h1 p o h
  obtain ⟨o3, he3, hd3⟩ := h2 p o2 he2
  exact ⟨o3, he3, dle_trans hd2 hd3⟩

theorem sLE_isSome {α : Type} {op : MeetOp} {s s2 : FState α}
    (h : sLE op s s2) {p : Nat} (hp : (s.outn p).isSome) : (s2.outn p).isSome := by
  obtain ⟨o, ho⟩ := Option.isSome_iff_exists.mp hp
  obtain ⟨o2, he2, _⟩ := h p o ho
  rw [he2]
  rfl

theorem storedPreds_mono {τ α : Type} {G : FGraph τ α} {s s2 : FState α}
    (h : sLE G.op s s2) (n : Nat) :
    ∀ p, p ∈ storedPreds G s n → p ∈ storedPreds G s2 n := by
  intro p hp
  rw [storedPreds, List.mem_filter] at hp ⊢
  exact ⟨hp.1, sLE_isSome h (by simpa using hp.2)⟩

theorem storedPreds_ne_nil {τ α : Type} {G : FGraph τ α} {s s2 : FState α}
    (h : sLE G.op s s2) {n : Nat} (hne : storedPreds G s n ≠ []) :
    storedPreds G s2 n ≠ [] := by
  obtain ⟨p, hp⟩ := List.exists_mem_of_ne_nil _ hne
  exact List.ne_nil_of_mem (storedPreds_mono h n p hp)

/-- Membership characterization of the incoming meet, may analysis. -/
theorem incoming_or_mem {τ α : Type} [DecidableEq α] {G : FGraph τ α}
    {s : FState α} {n : Nat} (hop : G.op = .orOp) (x : α) :
    x ∈ incomingOf G s n ↔ ∃ p ∈ storedPreds G s n, x ∈ (s.outn p).getD ∅ := by
  rw [incomingOf]
  cases hpd : storedPreds G s n with
  | nil => simp
  | cons h t =>
    rw [hop]
    have happ : (fun acc p => MeetOp.orOp.app acc ((s.outn p).getD ∅))
        = fun acc p => acc ∪ (fun q => (s.outn q).getD ∅) p := rfl
    rw [happ, foldl_union_mem]
    simp

/-- Membership characterization of the incoming meet, must analysis. -/
theorem incoming_and_mem {τ α : Type} [DecidableEq α] {G : FGraph τ α}
    {s : FState α} {n : Nat} (hop : G.op = .andOp) (x : α) :
    x ∈ incomingOf G s n
      ↔ (storedPreds G s n ≠ [] ∧ ∀ p ∈ storedPreds G s n, x ∈ (s.outn p).getD ∅) := by
  rw [incomingOf]
  cases hpd : storedPreds G s n with
  | nil => simp
  | cons h t =>
    rw [hop]
    have happ : (fun acc p => MeetOp.andOp.app acc ((s.outn p).getD ∅))
        = fun acc p => acc ∩ (fun q => (s.outn q).getD ∅) p := rfl
    rw [happ, foldl_inter_mem]
    simp

theorem stored_getD_some {α : Type} {s : FState α} {p : Nat}
    (hp : (s.outn p).isSome) : s.outn p = some ((s.outn p).getD ∅) := by
  obtain ⟨o, ho⟩ := Option.isSome_iff_exists.mp hp
  rw [ho]
  rfl

/-- The incoming meet moves in the progress direction as the state
progresses, provided some predecessor was already stored (or the node has
no predecessors at all - the entry). -/
theorem incoming_mono {τ α : Type} [DecidableEq α] {G : FGraph τ α}
    {s s2 : FState α} {n : Nat} (hle : sLE G.op s s2)
    (hside : storedPreds G s n ≠ [] ∨ G.prevL n = []) :
    dle G.op (incomingOf G s n) (incomingOf G s2 n) := by
  cases hop : G.op with
  | orOp =>
    intro x hx
    obtain ⟨p, hp, hxp⟩ := (incoming_or_mem hop x).mp hx
    have hps : (s.outn p).isSome := by
      rw [storedPreds, List.mem_filter] at hp
      simpa using hp.2
    obtain ⟨o, ho⟩ := Option.isSome_iff_exists.mp hps
    obtain ⟨o2, he2, hd2⟩ := hle p o ho
    refine (incoming_or_mem hop x).mpr ⟨p, storedPreds_mono (hop ▸ hle) n p hp, ?_⟩
    rw [he2]
    rw [ho] at hxp
    exact (hop ▸ hd2) hxp
  | andOp =>
    intro x hx
    rcases hside with hne | hnil
    · obtain ⟨_, hall2⟩ := (incoming_and_mem hop x).mp hx
      refine (incoming_and_mem hop x).mpr ⟨hne, ?_⟩
      intro p hp
      have hps : (s.outn p).isSome := by
        rw [storedPreds, List.mem_filter] at hp
        simpa using hp.2
      obtain ⟨o, ho⟩ := Option.isSome_iff_exists.mp hps
      obtain ⟨o2, he2, hd2⟩ := hle p o ho
      have := hall2 p (storedPreds_mono (hop ▸ hle) n p hp)
      rw [he2] at this
      rw [ho]
      exact (hop ▸ hd2) this
    · have h2 : storedPreds G s2 n = [] := by
        rw [storedPreds, hnil]
        rfl
      rw [incomingOf, h2] at hx
      exact absurd hx (Finset.not_mem_empty x)


/-- A well-formed analysis on a built CFG: updates monotone under the meet,
updates staying inside the finite fact universe `U`, successor indices in
range, `prev` the transpose of `next` (which `build_cfg` guarantees - see
the development around `claim_C7`). -/
structure WFA {τ α : Type} [DecidableEq α] (G : FGraph τ α) (U : Finset α) : Prop where
  mono : ∀ n v a b, dle G.op a b → dle G.op (applyGK G n v a) (applyGK G n v b)
  ubound : ∀ n v inc, inc ⊆ U → applyGK G n v inc ⊆ U
  edges : ∀ n m, m ∈ G.nextL n → m < G.N
  transpose : ∀ a b, (a ∈ G.prevL b ↔ b ∈ G.nextL a)

/-- Run invariant: every stored outgoing set lies inside the universe and
is consistent from below - either the node has no predecessors and holds
exactly the update of the empty set, or some predecessor is stored and the
stored set is `dle`-below the update of the current incoming meet. -/
structure FInv {τ α : Type} [DecidableEq α] (G : FGraph τ α) (U : Finset α)
    (s : FState α) : Prop where
  bound : ∀ n o, s.outn n = some o → o ⊆ U
  consistent : ∀ n v o, G.value n = some v → s.outn n = some o →
    (G.prevL n = [] ∧ o = applyGK G n v ∅)
    ∨ (storedPreds G s n ≠ [] ∧ dle G.op o (applyGK G n v (incomingOf G s n)))

theorem incoming_bound {τ α : Type} [DecidableEq α] {G : FGraph τ α}
    {U : Finset α} {s : FState α}
    (hb : ∀ p o, s.outn p = some o → o ⊆ U) (n : Nat) :
    incomingOf G s n ⊆ U := by
  intro x hx
  cases hop : G.op with
  | orOp =>
    obtain ⟨p, hp, hxp⟩ := (incoming_or_mem hop x).mp hx
    have hps : (s.outn p).isSome := by
      rw [storedPreds, List.mem_filter] at hp
      simpa using hp.2
    exact hb p _ (stored_getD_some hps) hxp
  | andOp =>
    obtain ⟨hne, hall⟩ := (incoming_and_mem hop x).mp hx
    obtain ⟨p, hp⟩ := List.exists_mem_of_ne_nil _ hne
    have hps : (s.outn p).isSome := by
      rw [storedPreds, List.mem_filter] at hp
      simpa using hp.2
    exact hb p _ (stored_getD_some hps) (hall p hp)

/-- Potential of one stored (or missing) outgoing set. -/
def phiOut {α : Type} (op : MeetOp) (u : Nat) : Option (Finset α) → Nat
  | none => u + 1
  | some o =>
    match op with
    | .orOp => u - o.card
    | .andOp => o.card

/-- Potential of a state: summed over the node range. -/
def Phi {τ α : Type} [DecidableEq α] (G : FGraph τ α) (U : Finset α)
    (s : FState α) : Nat :=
  ∑ m ∈ Finset.range G.N, phiOut G.op U.card (s.outn m)

theorem phiOut_mono {α : Type} {op : MeetOp} {u : Nat} {a b : Option (Finset α)}
    (hU : ∀ o, b = some o → o.card ≤ u)
    (hrel : ∀ o, a = some o → ∃ o2, b = some o2 ∧ dle op o o2) :
    phiOut op u b ≤ phiOut op u a := by
  cases a with
  | none =>
    cases b with
    | none => exact Nat.le_refl _
    | some o2 =>
      have := hU o2 rfl
      cases op <;> simp [phiOut] <;> omega
  | some o =>
    obtain ⟨o2, he2, hd2⟩ := hrel o rfl
    subst he2
    have hc2 := hU o2 rfl
    cases op with
    | orOp =>
      have := Finset.card_le_card (hd2 : o ⊆ o2)
      simp [phiOut]
      omega
    | andOp =>
      have := Finset.card_le_card (hd2 : o2 ⊆ o)
      simp [phiOut]
      omega

theorem Phi_mono {τ α : Type} [DecidableEq α] {G : FGraph τ α} {U : Finset α}
    {s s2 : FState α} (hle : sLE G.op s s2)
    (hb2 : ∀ p o, s2.outn p = some o → o ⊆ U) :
    Phi G U s2 ≤ Phi G U s := by
  refine Finset.sum_le_sum ?_
  intro m _
  refine phiOut_mono ?_ ?_
  · intro o ho
    exact Finset.card_le_card (hb2 m o ho)
  · intro o ho
    exact hle m o ho


theorem visitStep_outn {τ α : Type} [DecidableEq α] (G : FGraph τ α)
    (s : FState α) (n : Nat) (v : τ) (m : Nat) :
    (visitStep G s n v).1.outn m
      = if m = n then some (applyGK G n v (incomingOf G s n)) else s.outn m := rfl

theorem visitStep_flag {τ α : Type} [DecidableEq α] (G : FGraph τ α)
    (s : FState α) (n : Nat) (v : τ) :
    ((visitStep G s n v).2 = true
      ↔ s.outn n ≠ some (applyGK G n v (incomingOf G s n))) := by
  rw [visitStep]
  simp [applyGK]

theorem visitStep_main {τ α : Type} [DecidableEq α] {G : FGraph τ α} {U : Finset α}
    (wf : WFA G U) {s : FState α} {n : Nat} {v : τ}
    (hv : G.value n = some v) (hinv : FInv G U s)
    (hcall : G.prevL n = [] ∨ ∃ p ∈ G.prevL n, (s.outn p).isSome) :
    FInv G U (visitStep G s n v).1 ∧ sLE G.op s (visitStep G s n v).1 := by
  set newOut := applyGK G n v (incomingOf G s n) with hnew
  have hkey : ∀ o, s.outn n = some o → dle G.op o newOut := by
    intro o ho
    rcases hinv.consistent n v o hv ho with ⟨hnil, hoe⟩ | ⟨hne, hdle⟩
    · have hsp : storedPreds G s n = [] := by rw [storedPreds, hnil]; rfl
      have hinc : incomingOf G s n = ∅ := by rw [incomingOf, hsp]
      rw [hnew, hinc, ← hoe]
      exact dle_refl _ _
    · rw [hnew]
      exact hdle
  have hle : sLE G.op s (visitStep G s n v).1 := by
    intro p o ho
    by_cases hpn : p = n
    · subst hpn
      refine ⟨newOut, ?_, hkey o ho⟩
      rw [visitStep_outn, if_pos rfl, hnew]
    · refine ⟨o, ?_, dle_refl _ _⟩
      rw [visitStep_outn, if_neg hpn]
      exact ho
  refine ⟨⟨?_, ?_⟩, hle⟩
  · intro m o ho
    rw [visitStep_outn] at ho
    by_cases hmn : m = n
    · rw [if_pos hmn] at ho
      have : o = applyGK G n v (incomingOf G s n) := (Option.some.inj ho).symm
      rw [this]
      exact wf.ubound n v _ (incoming_bound hinv.bound n)
    · rw [if_neg hmn] at ho
      exact hinv.bound m o ho
  · intro m v2 o2 hv2 ho2
    rw [visitStep_outn] at ho2
    by_cases hmn : m = n
    · subst hmn
      rw [if_pos rfl] at ho2
      have hv2v : v2 = v := by
        rw [hv] at hv2
        exact (Option.some.inj hv2).symm
      subst hv2v
      have ho2e : o2 = newOut := by
        rw [hnew]
        exact (Option.some.inj ho2).symm
      subst ho2e
      rcases hcall with hnil | ⟨p, hpm, hps⟩
      · left
        refine ⟨hnil, ?_⟩
        have hsp : storedPreds G s m = [] := by rw [storedPreds, hnil]; rfl
        have hinc : incomingOf G s m = ∅ := by rw [incomingOf, hsp]
        rw [hnew, hinc]
      · right
        have hpstored : p ∈ storedPreds G s m := by
          rw [storedPreds, List.mem_filter]
          exact ⟨hpm, by simpa using hps⟩
        have hne : storedPreds G s m ≠ [] := List.ne_nil_of_mem hpstored
        refine ⟨storedPreds_ne_nil hle hne, ?_⟩
        rw [hnew]
        exact wf.mono m v2 _ _ (incoming_mono hle (Or.inl hne))
    · rw [if_neg hmn] at ho2
      rcases hinv.consistent m v2 o2 hv2 ho2 with ⟨hnil, hoe⟩ | ⟨hne, hdle⟩
      · exact Or.inl ⟨hnil, hoe⟩
      · right
        refine ⟨storedPreds_ne_nil hle hne, ?_⟩
        exact dle_trans hdle (wf.mono m v2 _ _ (incoming_mono hle (Or.inl hne)))

theorem visitStep_Phi_lt {τ α : Type} [DecidableEq α] {G : FGraph τ α} {U : Finset α}
    {s : FState α} {n : Nat} {v : τ}
    (hinv2 : FInv G U (visitStep G s n v).1)
    (hle : sLE G.op s (visitStep G s n v).1)
    (hflag : (visitStep G s n v).2 = true) (hn : n < G.N) :
    Phi G U (visitStep G s n v).1 < Phi G U s := by
  have hchange : s.outn n ≠ some (applyGK G n v (incomingOf G s n)) :=
    (visitStep_flag G s n v).mp hflag
  have hnewOut : (visitStep G s n v).1.outn n
      = some (applyGK G n v (incomingOf G s n)) := by
    rw [visitStep_outn, if_pos rfl]
  have hnewU : (applyGK G n v (incomingOf G s n)).card ≤ U.card :=
    Finset.card_le_card (hinv2.bound n _ hnewOut)
  refine Finset.sum_lt_sum ?_ ⟨n, Finset.mem_range.mpr hn, ?_⟩
  · intro m _
    refine phiOut_mono ?_ ?_
    · intro o ho
      exact Finset.card_le_card (hinv2.bound m o ho)
    · intro o ho
      exact hle m o ho
  · rw [hnewOut]
    cases hs : s.outn n with
    | none =>
      cases hop : G.op <;> simp [phiOut] <;> omega
    | some o =>
      obtain ⟨o2, ho2, hd2⟩ := hle n o hs
      rw [hnewOut] at ho2
      have ho2e : o2 = applyGK G n v (incomingOf G s n) := (Option.some.inj ho2).symm
      subst ho2e
      have hone : o ≠ applyGK G n v (incomingOf G s n) := fun he => hchange (by rw [hs, he])
      cases hop : G.op with
      | orOp =>
        rw [hop] at hd2
        have hss : o ⊂ applyGK G n v (incomingOf G s n) :=
          Finset.ssubset_iff_subset_ne.mpr ⟨hd2, hone⟩
        have hcard := Finset.card_lt_card hss
        simp [phiOut]
        omega
      | andOp =>
        rw [hop] at hd2
        have hss : applyGK G n v (incomingOf G s n) ⊂ o :=
          Finset.ssubset_iff_subset_ne.mpr ⟨hd2, fun he => hone he.symm⟩
        have hcard := Finset.card_lt_card hss
        simp [phiOut]
        omega

theorem visitStep_Phi_eq {τ α : Type} [DecidableEq α] {G : FGraph τ α} {U : Finset α}
    {s : FState α} {n : Nat} {v : τ}
    (hflag : (visitStep G s n v).2 = false) :
    Phi G U (visitStep G s n v).1 = Phi G U s := by
  have hsame : s.outn n = some (applyGK G n v (incomingOf G s n)) := by
    by_contra hne
    have hx := (visitStep_flag G s n v).mpr hne
    rw [hflag] at hx
    exact Bool.noConfusion hx
  refine Finset.sum_congr rfl ?_
  intro m _
  rw [visitStep_outn]
  by_cases hmn : m = n
  · rw [if_pos hmn, hmn, hsame]
  · rw [if_neg hmn]


theorem visit_main {τ α : Type} [DecidableEq α] (G : FGraph τ α) (U : Finset α)
    (wf : WFA G U) :
    ∀ (f : Nat) (s : FState α) (n : Nat), n < G.N → FInv G U s →
      (G.prevL n = [] ∨ ∃ p ∈ G.prevL n, (s.outn p).isSome) →
      Phi G U s < f →
      ∃ s2, visitF G f s n = some s2 ∧ FInv G U s2 ∧ sLE G.op s s2
        ∧ Phi G U s2 ≤ Phi G U s := by
  intro f
  induction f with
  | zero =>
    intro s n _ _ _ h
    omega
  | succ f ih =>
    have ihL : ∀ (l : List Nat) (s : FState α) (p : Nat), FInv G U s →
        (s.outn p).isSome → (∀ m ∈ l, m < G.N) → (∀ m ∈ l, p ∈ G.prevL m) →
        Phi G U s < f →
        ∃ s2, visitL G f s l = some s2 ∧ FInv G U s2 ∧ sLE G.op s s2
          ∧ Phi G U s2 ≤ Phi G U s := by
      intro l
      induction l with
      | nil =>
        intro s p hinv _ _ _ _
        exact ⟨s, by rw [visitL], hinv, sLE_refl _ _, Nat.le_refl _⟩
      | cons m t ihl =>
        intro s p hinv hps hlt hprev hphi
        obtain ⟨s2, he2, hinv2, hle2, hp2⟩ :=
          ih s m (hlt m (List.mem_cons_self m t)) hinv
            (Or.inr ⟨p, hprev m (List.mem_cons_self m t), hps⟩) hphi
        obtain ⟨s3, he3, hinv3, hle3, hp3⟩ :=
          ihl s2 p hinv2 (sLE_isSome hle2 hps)
            (fun m2 hm2 => hlt m2 (List.mem_cons_of_mem m hm2))
            (fun m2 hm2 => hprev m2 (List.mem_cons_of_mem m hm2)) (by omega)
        refine ⟨s3, ?_, hinv3, sLE_trans hle2 hle3, by omega⟩
        rw [visitL, he2]
        exact he3
    intro s n hn hinv hcall hphi
    cases hv : G.value n with
    | none =>
      refine ⟨{ s with exitv := some (exitMeet G s n) }, ?_,
        ⟨hinv.bound, hinv.consistent⟩, sLE_refl _ _, Nat.le_refl _⟩
      rw [visitF, hv]
    | some v =>
      obtain ⟨hinv2, hle2⟩ := visitStep_main wf hv hinv hcall
      cases hflag : (visitStep G s n v).2 with
      | false =>
        refine ⟨(visitStep G s n v).1, ?_, hinv2, hle2,
          le_of_eq (visitStep_Phi_eq hflag)⟩
        rw [visitF, hv]
        simp [hflag]
      | true =>
        have hphi2 : Phi G U (visitStep G s n v).1 < Phi G U s :=
          visitStep_Phi_lt hinv2 hle2 hflag hn
        have hsome : ((visitStep G s n v).1.outn n).isSome := by
          rw [visitStep_outn, if_pos rfl]
          rfl
        obtain ⟨s3, he3, hinv3, hle3, hp3⟩ :=
          ihL (G.nextL n) (visitStep G s n v).1 n hinv2 hsome
            (fun m hm => wf.edges n m hm)
            (fun m hm => (wf.transpose n m).mpr hm) (by omega)
        refine ⟨s3, ?_, hinv3, sLE_trans hle2 hle3, by omega⟩
        rw [visitF, hv]
        simp [hflag]
        exact he3

/-- C2.  For a CFG-shaped graph (successors in range, `prev` the transpose
of `next` as `build_cfg` establishes, an entry with no predecessors) and a
well-formed analysis - a gen/kill function whose update
`(incoming - kill) | gen` is monotone under the chosen meet and stays
inside the finite fact universe `U` - the engine\'s recursive
revisit-on-change propagation started at the entry from a fresh state
terminates: some finite recursion budget returns a final state. -/
theorem claim_C2 {τ α : Type} [DecidableEq α] (G : FGraph τ α) (U : Finset α)
    (entry : Nat) (hentry : entry < G.N) (hpe : G.prevL entry = [])
    (hmono : ∀ n v a b, dle G.op a b → dle G.op (applyGK G n v a) (applyGK G n v b))
    (hub : ∀ n v inc, inc ⊆ U → applyGK G n v inc ⊆ U)
    (hedges : ∀ n m, m ∈ G.nextL n → m < G.N)
    (htrans : ∀ a b, (a ∈ G.prevL b ↔ b ∈ G.nextL a)) :
    ∃ (f : Nat) (s2 : FState α), visitF G f (initFState α) entry = some s2 := by
  have hinv0 : FInv G U (initFState α) := by
    constructor
    · intro n o h
      exact Option.noConfusion h
    · intro n v o _ h
      exact Option.noConfusion h
  obtain ⟨s2, he, _⟩ := visit_main G U ⟨hmono, hub, hedges, htrans⟩
    (Phi G U (initFState α) + 1) (initFState α) entry hentry hinv0 (Or.inl hpe)
    (Nat.lt_succ_self _)
  exact ⟨Phi G U (initFState α) + 1, s2, he⟩

/-- C2 witness: the concrete two-node graph `Gw` with the trivial may
analysis over the empty universe. -/
theorem claim_C2_witness :
    0 < Gw.N ∧ Gw.prevL 0 = []
    ∧ (∃ (f : Nat) (s2 : FState Nat), visitF Gw f (initFState Nat) 0 = some s2) := by
  have hmono : ∀ n v a b, dle Gw.op a b → dle Gw.op (applyGK Gw n v a) (applyGK Gw n v b) := by
    intro n v a b hab
    show ((a \ ∅) ∪ ∅) ⊆ ((b \ ∅) ∪ ∅)
    simpa using hab
  have hub : ∀ n v inc, inc ⊆ (∅ : Finset Nat) → applyGK Gw n v inc ⊆ ∅ := by
    intro n v inc h
    show ((inc \ ∅) ∪ ∅) ⊆ ∅
    simpa using h
  have hedges : ∀ n m, m ∈ Gw.nextL n → m < Gw.N := by
    intro n m hm
    show m < 2
    by_cases hn0 : n = 0
    · subst hn0
      simp [Gw] at hm
      omega
    · simp [Gw, hn0] at hm
  have htrans : ∀ a b, (a ∈ Gw.prevL b ↔ b ∈ Gw.nextL a) := by
    intro a b
    by_cases hb : b = 1
    · by_cases ha : a = 0
      · subst hb
        subst ha
        simp [Gw]
      · subst hb
        simp [Gw, ha]
    · by_cases ha : a = 0
      · subst ha
        simp [Gw, hb]
      · simp [Gw, hb, ha]
  exact ⟨by decide, rfl, claim_C2 Gw ∅ 0 (by decide) rfl hmono hub hedges htrans⟩


/-!
### The Active Variables analysis (claim C6)
-/

/-- Modelled from the spec: `ast_.get_name` (`tangent/ast.py`, outside the
analyzed sources) returns the dotted name of a simple `Name`/`Attribute`
chain and raises `TypeError` (here `none`) for a chain through any other
node kind. -/
def get_name : CExpr → Option String
  | .name id => some id
  | .attr v a => (get_name v).map (fun p => p ++ "." ++ a)
  | _ => none

mutual

/-- `VarVisitor`/`get_variables` from `tangent/cfg.py`: collect every bare
name and every simple dotted attribute chain.  `visit_Name` adds the
identifier; `visit_Attribute` adds the chain name when `ast_.get_name`
succeeds and swallows the `TypeError` otherwise - in both cases without
descending into the attribute\'s children (the override never calls
`generic_visit`); all other node kinds descend into their children. -/
def get_variables : CExpr → Finset String
  | .name id => {id}
  | .attr v a =>
    match get_name (.attr v a) with
    | some nm => {nm}
    | none => ∅
  | .sub v sl => get_variables v ∪ get_variables sl
  | .call f args _ => get_variables f ∪ get_variables_list args
  | .tup elts => get_variables_list elts
  | .const => ∅

/-- Collection over child lists (`generic_visit`). -/
def get_variables_list : List CExpr → Finset String
  | [] => ∅
  | e :: t => get_variables e ∪ get_variables_list t

end

mutual

/-- Modelled from the spec: the contribution of one assignment target to
`ast_.get_updated` (`tangent/ast.py`, outside the analyzed sources) - "the
names the assignment updates": the (chain) name of a name or simple
attribute target, the base of a subscript target, all members of a tuple
target. -/
def get_updated_tgt : CExpr → Finset String
  | .name id => {id}
  | .attr v a =>
    match get_name (.attr v a) with
    | some nm => {nm}
    | none => ∅
  | .sub v _ => get_updated_tgt v
  | .tup elts => get_updated_list elts
  | _ => ∅

/-- Update names of a target list. -/
def get_updated_list : List CExpr → Finset String
  | [] => ∅
  | t :: rest => get_updated_tgt t ∪ get_updated_list rest

end

/-- Modelled from the spec: `ast_.get_updated` on an assignment - the set
of names the assignment updates, over all its targets. -/
def get_updated (targets : List CExpr) : Finset String :=
  get_updated_list targets

/-- `anno.getanno(node.value.value, 'func', False) == utils.pop`: whether
the right-hand side is a call whose `func` annotation is tangent\'s
stack-`pop` primitive (nodes other than calls never carry a `func`
annotation, so the default `False` applies; the spec leaves the exact
recognition mechanism abstract, so the bit lives on the call node). -/
def rhsIsPop : CExpr → Bool
  | .call _ _ popAnno => popAnno
  | _ => false

/-- The gen/kill function of the Active analysis
(`Active.__init__.active`), with `wrt` the indices of the active
parameters (`node.value.args[i].id for i in wrt`; an index outside the
parameter list, an `IndexError` in Python, contributes nothing here). -/
def activeGenKill (wrt : List Nat) (node : NodeVal) (incoming : Finset String) :
    Finset String × Finset String :=
  match node with
  | .argsV params => ((wrt.filterMap (fun i => params.get? i)).toFinset, ∅)
  | .assignV targets rhs =>
    if rhsIsPop rhs then (get_updated targets, ∅)
    else
      if (get_variables rhs ∩ incoming).Nonempty then (get_updated targets, ∅)
      else (∅, get_updated targets)
  | _ => (∅, ∅)

/-- C6.  The Active gen/kill function on an assignment: a stack-pop
right-hand side generates every updated name regardless of the incoming
set (and kills nothing); otherwise, if any collected name of the
right-hand side is active, all the update targets are generated and
nothing is killed, and if none is, all the update targets are killed and
nothing is generated; statements that are neither an assignment nor the
entry parameter list generate and kill nothing. -/
theorem claim_C6 (wrt : List Nat) (incoming : Finset String) :
    (∀ targets rhs, rhsIsPop rhs = true →
      activeGenKill wrt (.assignV targets rhs) incoming = (get_updated targets, ∅))
    ∧ (∀ targets rhs, rhsIsPop rhs = false →
        (∃ n ∈ get_variables rhs, n ∈ incoming) →
      activeGenKill wrt (.assignV targets rhs) incoming = (get_updated targets, ∅))
    ∧ (∀ targets rhs, rhsIsPop rhs = false →
        (∀ n ∈ get_variables rhs, n ∉ incoming) →
      activeGenKill wrt (.assignV targets rhs) incoming = (∅, get_updated targets))
    ∧ (∀ e, activeGenKill wrt (.exprV e) incoming = (∅, ∅))
    ∧ (∀ tg it, activeGenKill wrt (.forV tg it) incoming = (∅, ∅))
    ∧ activeGenKill wrt .otherV incoming = (∅, ∅) := by
  refine ⟨?_, ?_, ?_, fun e => rfl, fun tg it => rfl, rfl⟩
  · intro targets rhs hpop
    rw [activeGenKill, if_pos hpop]
  · intro targets rhs hpop hex
    obtain ⟨n, hn, hni⟩ := hex
    rw [activeGenKill, if_neg (by rw [hpop]; exact Bool.false_ne_true)]
    rw [if_pos ⟨n, Finset.mem_inter.mpr ⟨hn, hni⟩⟩]
  · intro targets rhs hpop hall
    rw [activeGenKill, if_neg (by rw [hpop]; exact Bool.false_ne_true)]
    rw [if_neg]
    rintro ⟨n, hn⟩
    obtain ⟨h1, h2⟩ := Finset.mem_inter.mp hn
    exact hall n h1 h2

/-- C6 witness: the assignment `y = x` under the incoming active set `{x}`
generates `y`. -/
theorem claim_C6_witness :
    rhsIsPop (CExpr.name "x") = false
    ∧ (∃ n ∈ get_variables (CExpr.name "x"), n ∈ ({"x"} : Finset String))
    ∧ activeGenKill [0] (.assignV [CExpr.name "y"] (CExpr.name "x")) {"x"}
        = (get_updated [CExpr.name "y"], ∅) := by
  have hx : "x" ∈ get_variables (CExpr.name "x") := by
    rw [get_variables]
    exact Finset.mem_singleton_self _
  have hex : ∃ n ∈ get_variables (CExpr.name "x"), n ∈ ({"x"} : Finset String) :=
    ⟨"x", hx, Finset.mem_singleton_self _⟩
  exact ⟨rfl, hex,
    (claim_C6 [0] {"x"}).2.1 [CExpr.name "y"] (CExpr.name "x") rfl hex⟩

end Tangent
